import Mathlib

/-!
# Path ORAM simulator: a shallow embedding and verification

This file embeds the Path ORAM simulator (`path_oram_sim_py38.py`) in Lean and
proves the key invariants and functional-correctness properties of its engine:
conservation of blocks, bucket-capacity bounds, subtree-correct eviction,
path-read completeness, read/write correctness, tail-count statistics,
fail-fast precondition checking, construction validation, reproducibility and
the frame property of `access`.

Modelling conventions:
* Python's process-wide random generator is abstracted as an infinite stream of
  naturals `RNG := Nat → Nat`; `random.randrange(n)` consumes one stream value
  and reduces it modulo `n`; `random.shuffle` is the Fisher-Yates loop that
  CPython implements, driven by the same stream.
* Python dicts (the stash) are insertion-ordered association lists with unique
  keys: assignment overwrites in place or appends at the end, exactly as a
  Python 3.7+ dict behaves.
* Data values (`data` payloads) are modelled by the inductive `PyVal`, covering
  every value the simulator stores: `None`, ints, strings and pairs.
* Fallible operations (`assert` in Python) return `Option`: `none` models the
  raised `AssertionError`, produced before any mutation, so a `none` result
  leaves no modified state at all.
-/

/-- Python values that flow through the simulator as block payloads. -/
inductive PyVal where
  | none : PyVal
  | int : Int → PyVal
  | str : String → PyVal
  | pair : PyVal → PyVal → PyVal
deriving DecidableEq, Repr

/-- The random source: an infinite stream of naturals.  `random.seed(seed)`
fixes the stream; all draws consume successive values. -/
def RNG : Type := Nat → Nat

/-- Drop the first value of the stream. -/
def RNG.next (g : RNG) : RNG := fun i => g (i + 1)

/-- `random.randrange(n)`: one draw, reduced into `[0, n)`. -/
def randrange (n : Nat) (g : RNG) : Nat × RNG := (g 0 % n, g.next)

/-- `random.getrandbits(1)`: one draw, reduced into `{0, 1}`. -/
def getrandbits1 (g : RNG) : Nat × RNG := (g 0 % 2, g.next)

/-! ## Python-dict primitives (insertion-ordered association list) -/

/-- The keys of a dict, in insertion order (`list(d.keys())`). -/
def dictKeys (d : List (Nat × PyVal)) : List Nat := d.map Prod.fst

/-- `d.get(k)` / `d[k]`: the value stored at `k`, if any. -/
def dictGet (d : List (Nat × PyVal)) (k : Nat) : Option PyVal :=
  (d.find? (fun p => p.1 == k)).map Prod.snd

/-- `d[k] = v`: overwrite in place if `k` is present, else append at the end. -/
def dictInsert (d : List (Nat × PyVal)) (k : Nat) (v : PyVal) : List (Nat × PyVal) :=
  if d.any (fun p => p.1 == k) then d.map (fun p => if p.1 == k then (k, v) else p)
  else d ++ [(k, v)]

/-- `d.pop(k)` (the removal part): drop the entry keyed `k`. -/
def dictPop (d : List (Nat × PyVal)) (k : Nat) : List (Nat × PyVal) :=
  d.eraseP (fun p => p.1 == k)

/-! ## Tree geometry (`node_index`, `path_nodes`, `same_subtree_at_level`) -/

/-- `node_index(level, idx)`: flat array index of a tree node. -/
def node_index (level idx : Nat) : Nat := 2 ^ level - 1 + idx

/-- `path_nodes(L, leaf_x)`: the `(level, index)` nodes from the root to leaf
`leaf_x`. -/
def path_nodes (L leaf_x : Nat) : List (Nat × Nat) :=
  (List.range (L + 1)).map (fun l => (l, if 0 < l then leaf_x >>> (L - l) else 0))

/-- `same_subtree_at_level(L, leaf_a, leaf_b, level)`: do two leaves share
their ancestor at `level`? -/
def same_subtree_at_level (L leaf_a leaf_b level : Nat) : Bool :=
  if level = 0 then true
  else (leaf_a >>> (L - level)) == (leaf_b >>> (L - level))

/-! ## The engine state -/

/-- The `PathORAM` object: parameters, flat bucket tree, position map, stash
and the (threaded) random stream. -/
structure PathORAM where
  N : Nat
  Z : Nat
  L : Nat
  tree : List (List (Nat × PyVal))
  position : List Nat
  stash : List (Nat × PyVal)
  rng : RNG

/-- `self.num_nodes = (1 << (L+1)) - 1`. -/
def numNodes (L : Nat) : Nat := 2 ^ (L + 1) - 1

/-- `self.leaf_space = 1 << L`. -/
def leafSpace (L : Nat) : Nat := 2 ^ L

/-- `self._bucket(level, idx)`: the bucket stored at a tree node. -/
def bucket (s : PathORAM) (level idx : Nat) : List (Nat × PyVal) :=
  s.tree.getD (node_index level idx) []

/-- Replace the bucket stored at a tree node. -/
def setBucket (s : PathORAM) (level idx : Nat) (b : List (Nat × PyVal)) : PathORAM :=
  { s with tree := s.tree.set (node_index level idx) b }

/-! ## Construction -/

/-- `[random.randrange(n) for _ in range(k)]`: `k` successive draws. -/
def randList : Nat → Nat → RNG → List Nat × RNG
  | 0, _, g => ([], g)
  | k + 1, n, g =>
    let (v, g') := randrange n g
    let (vs, g'') := randList k n g'
    (v :: vs, g'')

/-- Exchange the elements at positions `i` and `j` (`x[i], x[j] = x[j], x[i]`). -/
def listSwap (l : List Nat) (i j : Nat) : List Nat :=
  (l.set i (l.getD j 0)).set j (l.getD i 0)

/-- The Fisher-Yates loop of `random.shuffle`: swap position `i` with a random
position `j ≤ i`, for `i` from `len - 1` down to `1`.  The first argument is
the current `i`. -/
def shuffleAux : Nat → List Nat → RNG → List Nat × RNG
  | 0, l, g => (l, g)
  | i + 1, l, g =>
    let (r, g') := randrange (i + 2) g
    shuffleAux i (listSwap l (i + 1) r) g'

/-- `random.shuffle(l)`. -/
def shuffle (l : List Nat) (g : RNG) : List Nat × RNG :=
  shuffleAux (l.length - 1) l g

/-- The levels `L, L-1, ..., 0` (`range(L, -1, -1)`). -/
def levelsDesc (L : Nat) : List Nat := (List.range (L + 1)).reverse

/-- The inner loop of `_initial_place_blocks`: walk the levels from the leaf
up and append `(a, a)` to the first bucket on `leaf`'s path with room, or
report failure. -/
def placeAt (s : PathORAM) (leaf a : Nat) : List Nat → Option PathORAM
  | [] => none
  | l :: ls =>
    let idx := if 0 < l then leaf >>> (s.L - l) else 0
    let b := bucket s l idx
    if b.length < s.Z then some (setBucket s l idx (b ++ [(a, PyVal.int a)]))
    else placeAt s leaf a ls

/-- One iteration of `_initial_place_blocks`: place block `a` on its path, or
into the stash when no bucket on the path has room. -/
def placeBlock (s : PathORAM) (a : Nat) : PathORAM :=
  match placeAt s (s.position.getD a 0) a (levelsDesc s.L) with
  | some s' => s'
  | none => { s with stash := dictInsert s.stash a (PyVal.int a) }

/-- `_initial_place_blocks`: shuffle the block ids, then place each in turn. -/
def initialPlaceBlocks (s : PathORAM) : PathORAM :=
  let (order, g') := shuffle (List.range s.N) s.rng
  order.foldl placeBlock { s with rng := g' }

/-- The body of `PathORAM.__init__` after the asserts pass: build the empty
tree, sample the position map, then run the initial placement. -/
def initCore (N Z L : Nat) (g : RNG) : PathORAM :=
  let (pos, g1) := randList N (leafSpace L) g
  initialPlaceBlocks
    { N := N, Z := Z, L := L, tree := List.replicate (numNodes L) [],
      position := pos, stash := [], rng := g1 }

/-- `PathORAM(N, Z, L, seed)`.  The parameters are Python ints; the three
`assert` statements run before any field is assigned, so a failure constructs
nothing (`none`). -/
def init (N Z L : Int) (g : RNG) : Option PathORAM :=
  if N ≤ 0 then none
  else if Z ≤ 0 then none
  else if L < 1 then none
  else if (2 ^ L.toNat : Int) < N then none
  else some (initCore N.toNat Z.toNat L.toNat g)

/-! ## Access -/

/-- One node of the path-read loop: move every pair of the bucket at `li` into
the stash, then empty the bucket. -/
def readPathStep (s : PathORAM) (li : Nat × Nat) : PathORAM :=
  let b := bucket s li.1 li.2
  { s with stash := b.foldl (fun st p => dictInsert st p.1 p.2) s.stash,
           tree := s.tree.set (node_index li.1 li.2) [] }

/-- The path read-and-clear phase (step 3 of `access`). -/
def readPath (s : PathORAM) (x : Nat) : PathORAM :=
  (path_nodes s.L x).foldl readPathStep s

/-- The candidate-selection loop of eviction: scan the stash keys in order,
collecting those that qualify, and stop as soon as `capacity` are chosen. -/
def evictChoose : List Nat → (Nat → Bool) → Nat → List Nat → List Nat
  | [], _, _, chosen => chosen
  | bid :: bids, qual, cap, chosen =>
    if qual bid then
      let chosen' := chosen ++ [bid]
      if chosen'.length = cap then chosen' else evictChoose bids qual cap chosen'
    else evictChoose bids qual cap chosen

/-- `bucket.append((bid, self.stash.pop(bid)))`: move one chosen block out of
the stash into the bucket at `(l, idx)`. -/
def evictMove (l idx : Nat) (s' : PathORAM) (bid : Nat) : PathORAM :=
  { s' with
    tree := s'.tree.set (node_index l idx)
      (bucket s' l idx ++ [(bid, (dictGet s'.stash bid).getD PyVal.none)]),
    stash := dictPop s'.stash bid }

/-- One level of the eviction loop: skip a full bucket, otherwise choose up to
the remaining capacity among stash blocks whose current position leaf lies in
this node's subtree, and move them from the stash into the bucket. -/
def evictLevel (s : PathORAM) (x l : Nat) : PathORAM :=
  let idx := if 0 < l then x >>> (s.L - l) else 0
  let b := bucket s l idx
  if s.Z ≤ b.length then s
  else
    let cap := s.Z - b.length
    let chosen := evictChoose (dictKeys s.stash)
      (fun bid => same_subtree_at_level s.L (s.position.getD bid 0) x l) cap []
    chosen.foldl (evictMove l idx) s

/-- The eviction phase (step 5 of `access`): levels `L` down to `0`. -/
def evictPath (s : PathORAM) (x : Nat) : PathORAM :=
  (levelsDesc s.L).foldl (fun s' l => evictLevel s' x l) s

/-- `PathORAM.access(op, a, new_data)`.  The two `assert`s run first: a
violation returns `none` with no state produced.  Otherwise: remember the old
leaf, resample the position, read-and-clear the old path, service the logical
operation on the stash, evict, and return the old data with the new state. -/
def access (op : String) (a : Int) (new_data : PyVal) (s : PathORAM) :
    Option (PyVal × PathORAM) :=
  if 0 ≤ a ∧ a < (s.N : Int) then
    if op = "read" ∨ op = "write" then
      let aN := a.toNat
      let x := s.position.getD aN 0
      let (r, g') := randrange (leafSpace s.L) s.rng
      let s1 := { s with position := s.position.set aN r, rng := g' }
      let s2 := readPath s1 x
      let old := (dictGet s2.stash aN).getD (PyVal.int a)
      let s3 := if op = "write" then { s2 with stash := dictInsert s2.stash aN new_data }
                else s2
      some (old, evictPath s3 x)
    else none
  else none

/-! ## Simulation harness -/

/-- The driver loop of `simulate`, by remaining iteration count.  `t` is the
current iteration index, `block` the cyclic block counter; each iteration
draws the operation kind, performs the access, and records the stash size
when the warm-up period is over. -/
def simLoop (s : PathORAM) (versions : List Nat) (block t warmup : Nat) :
    Nat → Option (PathORAM × List Nat)
  | 0 => some (s, [])
  | k + 1 =>
    let (bit, g') := getrandbits1 s.rng
    let sr := { s with rng := g' }
    let op := if bit ≠ 0 then "write" else "read"
    let a := block
    let block' := if block + 1 = s.N then 0 else block + 1
    let vres :=
      if op = "write" then
        let v := versions.getD a 0 + 1
        (versions.set a v,
          access "write" (a : Int) (PyVal.pair (PyVal.int a) (PyVal.int v)) sr)
      else (versions, access "read" (a : Int) PyVal.none sr)
    match vres.2 with
    | none => none
    | some (_, s') =>
      match simLoop s' vres.1 block' (t + 1) warmup k with
      | none => none
      | some (sf, rec) => some (sf, (if warmup ≤ t then [s'.stash.length] else []) ++ rec)

/-- `max(recorded) if recorded else 0`. -/
def maxOf (l : List Nat) : Nat := l.foldl max 0

/-- The histogram of recorded sizes (`hist[val] += 1`). -/
def histOf (rec : List Nat) (m : Nat) : List Nat :=
  rec.foldl (fun h v => h.set v (h.getD v 0 + 1)) (List.replicate (m + 1) 0)

/-- `suffix_ge[k]`, built by the descending accumulation loop:
`suffix_ge[k] = hist[k] + suffix_ge[k+1]`, zero past the end. -/
def suffixGe (h : List Nat) (k : Nat) : Nat :=
  if _hk : k < h.length then h.getD k 0 + suffixGe h (k + 1) else 0
termination_by h.length - k

/-- `tail_counts` as a list indexed by the threshold `i`:
`tail_counts[i] = suffix_ge[i+1] if (i+1) <= max_stash else 0`. -/
def tailCounts (rec : List Nat) : List Nat :=
  let m := maxOf rec
  let h := histOf rec m
  (List.range (m + 1)).map (fun i => if i + 1 ≤ m then suffixGe h (i + 1) else 0)

/-- The statistics that `simulate` returns, from the recorded samples. -/
def postProcess (rec : List Nat) : List Nat × Nat × Nat :=
  (tailCounts rec, maxOf rec, rec.length)

/-- `PathORAM.simulate(total_ops, warmup_ops)` (without the file output):
the `assert total_ops > warmup_ops >= 0` gate, then the driver loop and the
tail-count post-processing. -/
def simulate (s : PathORAM) (total warmup : Nat) : Option (List Nat × Nat × Nat) :=
  if warmup < total then
    match simLoop s (List.replicate s.N 0) 0 0 warmup total with
    | none => none
    | some (_, rec) => some (postProcess rec)
  else none

/-- Run a sequence of `access` calls, collecting the returned `old_data`
values (used to state reproducibility over an operation sequence). -/
def applyOps : PathORAM → List (String × Int × PyVal) → Option (List PyVal × PathORAM)
  | s, [] => some ([], s)
  | s, (op, a, d) :: ops =>
    match access op a d s with
    | none => none
    | some (r, s') =>
      match applyOps s' ops with
      | none => none
      | some (rs, sf) => some (r :: rs, sf)

/-! ## Derived observations of a state -/

/-- Every `(block_id, data)` pair resident anywhere: stash first, then every
tree bucket in flat order. -/
def allPairs (s : PathORAM) : List (Nat × PyVal) := s.stash ++ s.tree.flatten

/-- The multiset (as a list) of resident block ids. -/
def allKeys (s : PathORAM) : List Nat := (allPairs s).map Prod.fst

/-- The data currently associated with block `b`, wherever it resides. -/
def dataOf (s : PathORAM) (b : Nat) : Option PyVal :=
  ((allPairs s).find? (fun p => p.1 == b)).map Prod.snd

/-- The flat tree indices of the buckets on the root-to-leaf path of `x`. -/
def pathIdxs (L x : Nat) : List Nat :=
  (path_nodes L x).map (fun li => node_index li.1 li.2)

/-- Subtree-correctness: every block resident in the bucket at `(l, idx)` has
a current position-map leaf lying in the subtree rooted there:
`position[bid] >>> (L - l) = idx` for `l > 0` (the root always qualifies). -/
def SubtreeOK (s : PathORAM) : Prop :=
  ∀ l, l ≤ s.L → ∀ idx, idx < 2 ^ l → ∀ p ∈ bucket s l idx,
    0 < l → s.position.getD p.1 0 >>> (s.L - l) = idx

/-- Capacity: every bucket (usually indexed inside the tree; `[]` for an
index past the end) holds at most `Z` pairs. -/
def CapOK (s : PathORAM) : Prop := ∀ n : Nat, (s.tree.getD n []).length ≤ s.Z

/-- The inductive invariant of the engine: well-formed shapes, valid
positions, conservation of the block ids, bucket capacity, and
subtree-correctness. -/
structure EngineInv (s : PathORAM) : Prop where
  zpos : 0 < s.Z
  posLen : s.position.length = s.N
  posLt : ∀ p ∈ s.position, p < 2 ^ s.L
  treeLen : s.tree.length = numNodes s.L
  keys : (allKeys s).Perm (List.range s.N)
  cap : CapOK s
  sub : SubtreeOK s

/-- States reachable by a valid construction followed by any sequence of
successful `access` calls. -/
inductive Reachable : PathORAM → Prop where
  | base (N Z L : Int) (g : RNG) (s : PathORAM) :
      init N Z L g = some s → Reachable s
  | step (s : PathORAM) (op : String) (a : Int) (d r : PyVal) (s' : PathORAM) :
      Reachable s → access op a d s = some (r, s') → Reachable s'

/-! ## Concrete witnesses -/

/-- A concrete random stream. -/
def g0 : RNG := fun _ => 0

/-- A small concretely constructed engine (`N = 2, Z = 1, L = 1`). -/
def sEx : PathORAM := initCore 2 1 1 g0

/-- A second small engine (`N = 4, Z = 2, L = 2`) with a nonconstant stream. -/
def g1 : RNG := fun i => i * 7 + 3

def sEx4 : PathORAM := initCore 4 2 2 g1

/-- The result of one concrete `access` on `sEx4` (for witnesses). -/
def accEx : PyVal × PathORAM :=
  (access "read" 0 PyVal.none sEx4).getD (PyVal.none, sEx4)

/-- The recorded-samples list of one concrete `simulate` run (for witnesses). -/
def recEx : List Nat :=
  ((simLoop sEx4 (List.replicate sEx4.N 0) 0 0 1 3).getD (sEx4, [])).2

def sfEx : PathORAM :=
  ((simLoop sEx4 (List.replicate sEx4.N 0) 0 0 1 3).getD (sEx4, [])).1

/-- The result of a concrete operation sequence on `sEx` (for witnesses). -/
def appEx : List PyVal × PathORAM :=
  (applyOps sEx [("read", 0, PyVal.none), ("write", 1, PyVal.str "x")]).getD ([], sEx)

/-- A concrete write access on `sEx4` (for witnesses). -/
def wEx : PyVal × PathORAM :=
  (access "write" 0 (PyVal.str "x") sEx4).getD (PyVal.none, sEx4)

/-- A concrete read access following `wEx` (for witnesses). -/
def rEx : PyVal × PathORAM :=
  (access "read" 0 PyVal.none wEx.2).getD (PyVal.none, wEx.2)

/-! # Theorems -/

/-- C7: `access` fails fast.  Calling `access` with a block id outside
`[0, N)` or with an `op` other than `"read"`/`"write"` fails the leading
asserts and returns `none`; since the asserts precede every mutation, no
modified state exists: the tree, stash and position map are untouched. -/
theorem access_fail_fast (s : PathORAM) (op : String) (a : Int) (d : PyVal)
    (h : a < 0 ∨ (s.N : Int) ≤ a ∨ (op ≠ "read" ∧ op ≠ "write")) :
    access op a d s = none := by
  unfold access
  rcases h with h | h | ⟨h1, h2⟩
  · rw [if_neg]; omega
  · rw [if_neg]; omega
  · split
    · rw [if_neg]; simp [h1, h2]
    · rfl

/-- Witness for C7 at a concrete state, id and op. -/
theorem access_fail_fast_witness :
    access "frobnicate" 0 PyVal.none sEx = none :=
  access_fail_fast sEx "frobnicate" 0 PyVal.none
    (Or.inr (Or.inr ⟨by decide, by decide⟩))

/-- C8: construction validation.  `PathORAM(N, Z, L, seed)` fails (returning
no state at all, the asserts preceding every field assignment) exactly when
`N ≤ 0`, `Z ≤ 0`, `L < 1` or `2 ^ L < N`; all other parameters construct. -/
theorem init_validation (N Z L : Int) (g : RNG) :
    init N Z L g = none ↔
      (N ≤ 0 ∨ Z ≤ 0 ∨ L < 1 ∨ (2 ^ L.toNat : Int) < N) := by
  unfold init
  split_ifs with h1 h2 h3 h4 <;> simp <;> omega

/-- C9: reproducibility.  Two engines constructed with the same
`(N, Z, L, seed)` stream, fed the same operation sequence, return identical
`old_data` sequences and identical final stash sizes. -/
theorem reproducible_runs (N Z L : Int) (g : RNG) (s1 s2 : PathORAM)
    (ops : List (String × Int × PyVal)) (r1 r2 : List PyVal) (f1 f2 : PathORAM)
    (h1 : init N Z L g = some s1) (h2 : init N Z L g = some s2)
    (e1 : applyOps s1 ops = some (r1, f1)) (e2 : applyOps s2 ops = some (r2, f2)) :
    r1 = r2 ∧ f1.stash.length = f2.stash.length := by
  have hs : s1 = s2 := by
    have := h1.symm.trans h2
    exact Option.some.inj this
  subst hs
  have := e1.symm.trans e2
  obtain ⟨hr, hf⟩ := Prod.mk.injEq .. ▸ Option.some.inj this
  subst hr; subst hf; exact ⟨rfl, rfl⟩

/-- Witness for C9 on a concrete engine and operation sequence. -/
theorem reproducible_runs_witness :
    appEx.1 = appEx.1 ∧ appEx.2.stash.length = appEx.2.stash.length :=
  reproducible_runs 2 1 1 g0 sEx sEx
    [("read", 0, PyVal.none), ("write", 1, PyVal.str "x")]
    appEx.1 appEx.1 appEx.2 appEx.2 rfl rfl rfl rfl

/-! ## List helpers -/

theorem foldl_preserve {β : Type _} {α : Type _} {γ : Type _} (f : β → α → β)
    (P : β → γ) (h : ∀ b x, P (f b x) = P b) :
    ∀ (l : List α) (b : β), P (l.foldl f b) = P b
  | [], _ => rfl
  | x :: xs, b => by
    rw [List.foldl_cons, foldl_preserve f P h xs (f b x), h]

theorem getD_set_self {α : Type _} (l : List α) (i : Nat) (a d : α)
    (h : i < l.length) : (l.set i a).getD i d = a := by
  simp [List.getD_eq_getElem?_getD, List.getElem?_set, h]

theorem getD_set_ne {α : Type _} (l : List α) {i j : Nat} (h : i ≠ j) (a d : α) :
    (l.set i a).getD j d = l.getD j d := by
  simp [List.getD_eq_getElem?_getD, List.getElem?_set, h]

theorem getD_range_map {α : Type _} (f : Nat → α) (n i : Nat) (d : α) (h : i < n) :
    ((List.range n).map f).getD i d = f i := by
  simp [List.getD_eq_getElem?_getD, List.getElem?_map, List.getElem?_range, h]

theorem le_foldl_max (l : List Nat) (a : Nat) :
    a ≤ l.foldl max a ∧ ∀ v ∈ l, v ≤ l.foldl max a := by
  induction l generalizing a with
  | nil => simp
  | cons x xs ih =>
    obtain ⟨h1, h2⟩ := ih (max a x)
    refine ⟨le_trans (le_max_left a x) h1, ?_⟩
    intro v hv
    rcases List.mem_cons.mp hv with rfl | hv
    · exact le_trans (le_max_right a v) h1
    · exact h2 v hv

theorem foldl_max_mem (l : List Nat) (a : Nat) :
    l.foldl max a = a ∨ l.foldl max a ∈ l := by
  induction l generalizing a with
  | nil => exact Or.inl rfl
  | cons x xs ih =>
    rcases ih (max a x) with h | h
    · rcases max_choice a x with hm | hm
      · exact Or.inl (by rw [List.foldl_cons, h, hm])
      · exact Or.inr (by rw [List.foldl_cons, h, hm]; exact List.mem_cons_self x xs)
    · exact Or.inr (List.mem_cons_of_mem x h)

theorem maxOf_le (l : List Nat) : ∀ v ∈ l, v ≤ maxOf l :=
  (le_foldl_max l 0).2

theorem maxOf_mem (l : List Nat) (h : l ≠ []) : maxOf l ∈ l := by
  rcases foldl_max_mem l 0 with h0 | hm
  · have h0' : maxOf l = 0 := h0
    cases l with
    | nil => exact absurd rfl h
    | cons x xs =>
      have hx := maxOf_le (x :: xs) x (List.mem_cons_self x xs)
      rw [h0'] at hx
      have hx0 : x = 0 := Nat.le_zero.mp hx
      rw [h0', ← hx0]
      exact List.mem_cons_self x xs
  · exact hm

theorem countP_le_split (rec : List Nat) (k : Nat) :
    rec.countP (fun v => decide (k ≤ v)) =
      rec.count k + rec.countP (fun v => decide (k + 1 ≤ v)) := by
  induction rec with
  | nil => simp
  | cons x xs ih =>
    rw [List.countP_cons, List.countP_cons, List.count_cons, ih]
    split_ifs <;> simp only [decide_eq_true_eq, beq_iff_eq] at * <;> omega

/-! ## Tail-count post-processing -/

theorem histOf_length (rec : List Nat) (m : Nat) :
    (histOf rec m).length = m + 1 := by
  unfold histOf
  rw [foldl_preserve _ List.length (fun b x => List.length_set b x _) rec, 
      List.length_replicate]

theorem hist_fold_getD (rec : List Nat) :
    ∀ (h0 : List Nat), (∀ v ∈ rec, v < h0.length) → ∀ v, v < h0.length →
      (rec.foldl (fun h v => h.set v (h.getD v 0 + 1)) h0).getD v 0 =
        h0.getD v 0 + rec.count v := by
  induction rec with
  | nil => intro h0 _ v _; simp
  | cons x xs ih =>
    intro h0 hall v hv
    rw [List.foldl_cons]
    have hx : x < h0.length := hall x (List.mem_cons_self x xs)
    have hlen : (h0.set x (h0.getD x 0 + 1)).length = h0.length :=
      List.length_set h0 x _
    rw [ih (h0.set x (h0.getD x 0 + 1))
      (fun w hw => hlen ▸ hall w (List.mem_cons_of_mem x hw)) v (hlen ▸ hv),
      List.count_cons]
    by_cases hxv : x = v
    · subst hxv
      rw [getD_set_self h0 x _ 0 hx]
      simp; omega
    · rw [getD_set_ne h0 hxv _ 0]
      simp [hxv]

theorem histOf_getD (rec : List Nat) (m : Nat) (hall : ∀ v ∈ rec, v ≤ m)
    (v : Nat) (hv : v ≤ m) : (histOf rec m).getD v 0 = rec.count v := by
  unfold histOf
  rw [hist_fold_getD rec (List.replicate (m + 1) 0)
    (by intro w hw; rw [List.length_replicate]; exact Nat.lt_succ_of_le (hall w hw))
    v (by rw [List.length_replicate]; exact Nat.lt_succ_of_le hv)]
  simp [List.getD_eq_getElem?_getD, List.getElem?_replicate, Nat.lt_succ_of_le hv]

theorem suffixGe_eq_countP (rec : List Nat) (m : Nat) (hall : ∀ v ∈ rec, v ≤ m) :
    ∀ k, suffixGe (histOf rec m) k = rec.countP (fun v => decide (k ≤ v)) := by
  intro k
  by_cases hk : k < (histOf rec m).length
  · rw [histOf_length] at hk
    -- downward induction: strong induction on m + 1 - k
    clear hk
    have main : ∀ j k, m + 1 - k ≤ j →
        suffixGe (histOf rec m) k = rec.countP (fun v => decide (k ≤ v)) := by
      intro j
      induction j with
      | zero =>
        intro k hkj
        have hk' : m + 1 ≤ k := by omega
        rw [suffixGe]
        rw [dif_neg (by rw [histOf_length]; omega)]
        symm
        rw [List.countP_eq_zero]
        intro v hv
        simp only [decide_eq_true_eq]
        have := hall v hv
        omega
      | succ j ihj =>
        intro k hkj
        by_cases hk : k < m + 1
        · rw [suffixGe, dif_pos (by rw [histOf_length]; omega),
            histOf_getD rec m hall k (by omega), ihj (k + 1) (by omega),
            ← countP_le_split]
        · rw [suffixGe, dif_neg (by rw [histOf_length]; omega)]
          symm
          rw [List.countP_eq_zero]
          intro v hv
          simp only [decide_eq_true_eq]
          have := hall v hv
          omega
    exact main (m + 1 - k) k le_rfl
  · rw [suffixGe, dif_neg hk]
    rw [histOf_length] at hk
    symm
    rw [List.countP_eq_zero]
    intro v hv
    simp only [decide_eq_true_eq]
    have := hall v hv
    omega

theorem tailCounts_getD (rec : List Nat) (i : Nat) (hi : i ≤ maxOf rec) :
    (tailCounts rec).getD i 0 = rec.countP (fun v => decide (i < v)) := by
  unfold tailCounts
  rw [getD_range_map _ _ _ _ (by omega)]
  by_cases him : i + 1 ≤ maxOf rec
  · rw [if_pos him, suffixGe_eq_countP rec (maxOf rec) (maxOf_le rec) (i + 1)]
    apply List.countP_congr
    intro v _
    simp only [decide_eq_true_eq]
    omega
  · rw [if_neg him]
    have hieq : i = maxOf rec := by omega
    subst hieq
    symm
    rw [List.countP_eq_zero]
    intro v hv
    simp only [decide_eq_true_eq]
    have := maxOf_le rec v hv
    omega

theorem simLoop_length :
    ∀ (k : Nat) (s : PathORAM) (vers : List Nat) (block t warmup : Nat)
      (sf : PathORAM) (rec : List Nat),
      simLoop s vers block t warmup k = some (sf, rec) →
      rec.length = (t + k) - max t warmup := by
  intro k
  induction k with
  | zero =>
    intro s vers block t warmup sf rec h
    simp only [simLoop, Option.some.injEq, Prod.mk.injEq] at h
    obtain ⟨_, h2⟩ := h
    subst h2
    simp only [List.length_nil]
    omega
  | succ k ih =>
    intro s vers block t warmup sf rec h
    simp only [simLoop, getrandbits1] at h
    split at h
    · exact absurd h (by simp)
    · split at h
      · exact absurd h (by simp)
      · rename_i s' heq1 sf2 rec2 heq2
        rw [Option.some.injEq, Prod.mk.injEq] at h
        obtain ⟨h1, h2⟩ := h
        subst h2
        have hlen := ih _ _ _ _ _ _ _ heq2
        by_cases hwt : warmup ≤ t <;> simp [hwt, hlen] <;> omega

/-- C6: tail-count correctness.  For every run of `simulate` with
`total_ops > warmup_ops ≥ 0` (given here through the driver loop that
produced the recorded samples `rec`), `simulate` returns
`(tail_counts, max_stash, S)` where `S` is the number of recorded samples,
`max_stash` is the largest recorded sample (it is attained and bounds every
sample), and for every `i ≤ max_stash`, `tail_counts[i]` is the number of
recorded samples strictly greater than `i`; in particular
`tail_counts[max_stash] = 0`. -/
theorem tail_counts_correct (s : PathORAM) (total warmup : Nat) (sf : PathORAM)
    (rec : List Nat) (hw : warmup < total)
    (hrun : simLoop s (List.replicate s.N 0) 0 0 warmup total = some (sf, rec)) :
    simulate s total warmup = some (tailCounts rec, maxOf rec, rec.length) ∧
    rec.length = total - warmup ∧ rec ≠ [] ∧
    (∀ v ∈ rec, v ≤ maxOf rec) ∧ maxOf rec ∈ rec ∧
    (∀ i, i ≤ maxOf rec →
      (tailCounts rec).getD i 0 = rec.countP (fun v => decide (i < v))) ∧
    (tailCounts rec).getD (maxOf rec) 0 = 0 := by
  have hlen : rec.length = total - warmup := by
    have := simLoop_length total s (List.replicate s.N 0) 0 0 warmup sf rec hrun
    omega
  have hne : rec ≠ [] := by
    intro hnil
    rw [hnil] at hlen
    simp at hlen
    omega
  refine ⟨?_, hlen, hne, maxOf_le rec, maxOf_mem rec hne, 
    fun i hi => tailCounts_getD rec i hi, ?_⟩
  · unfold simulate
    rw [if_pos hw, hrun]
    rfl
  · rw [tailCounts_getD rec (maxOf rec) le_rfl]
    rw [List.countP_eq_zero]
    intro v hv
    simp only [decide_eq_true_eq]
    have := maxOf_le rec v hv
    omega

/-- Witness for C6: a concrete three-operation run with one warm-up step. -/
theorem tail_counts_correct_witness :
    simulate sEx4 3 1 = some (tailCounts recEx, maxOf recEx, recEx.length) ∧
    recEx.length = 3 - 1 ∧ recEx ≠ [] ∧
    (∀ v ∈ recEx, v ≤ maxOf recEx) ∧ maxOf recEx ∈ recEx ∧
    (∀ i, i ≤ maxOf recEx →
      (tailCounts recEx).getD i 0 = recEx.countP (fun v => decide (i < v))) ∧
    (tailCounts recEx).getD (maxOf recEx) 0 = 0 :=
  tail_counts_correct sEx4 3 1 sfEx recEx (by decide) rfl

/-! ## Tree-geometry lemmas -/

theorem shiftRight_lt {x L l : Nat} (hx : x < 2 ^ L) (hl : l ≤ L) :
    x >>> (L - l) < 2 ^ l := by
  rw [Nat.shiftRight_eq_div_pow]
  apply Nat.div_lt_of_lt_mul
  calc x < 2 ^ L := hx
    _ = 2 ^ (L - l) * 2 ^ l := by rw [← pow_add]; congr 1; omega

theorem node_index_lt {l idx L : Nat} (hl : l ≤ L) (hidx : idx < 2 ^ l) :
    node_index l idx < numNodes L := by
  unfold node_index numNodes
  have h1 : 1 ≤ 2 ^ l := Nat.one_le_two_pow
  have h2 : 2 ^ (l + 1) ≤ 2 ^ (L + 1) := Nat.pow_le_pow_right (by norm_num) (by omega)
  have h3 : 2 ^ (l + 1) = 2 * 2 ^ l := by rw [pow_succ]; ring
  omega

theorem node_index_inj {l idx l' idx' : Nat} (h : idx < 2 ^ l) (h' : idx' < 2 ^ l')
    (heq : node_index l idx = node_index l' idx') : l = l' ∧ idx = idx' := by
  unfold node_index at heq
  have h1 : 1 ≤ 2 ^ l := Nat.one_le_two_pow
  have h1' : 1 ≤ 2 ^ l' := Nat.one_le_two_pow
  rcases Nat.lt_trichotomy l l' with hll | hll | hll
  · exfalso
    have h2 : 2 ^ (l + 1) ≤ 2 ^ l' := Nat.pow_le_pow_right (by norm_num) (by omega)
    have h3 : 2 ^ (l + 1) = 2 * 2 ^ l := by rw [pow_succ]; ring
    omega
  · subst hll
    omega
  · exfalso
    have h2 : 2 ^ (l' + 1) ≤ 2 ^ l := Nat.pow_le_pow_right (by norm_num) (by omega)
    have h3 : 2 ^ (l' + 1) = 2 * 2 ^ l' := by rw [pow_succ]; ring
    omega

theorem node_index_surj {L n : Nat} (hn : n < numNodes L) :
    ∃ l idx, l ≤ L ∧ idx < 2 ^ l ∧ node_index l idx = n := by
  have hm : 1 ≤ n + 1 := by omega
  have h1 : 2 ^ Nat.log 2 (n + 1) ≤ n + 1 := Nat.pow_log_le_self 2 (by omega)
  have h2 : n + 1 < 2 ^ (Nat.log 2 (n + 1) + 1) :=
    Nat.lt_pow_succ_log_self (by norm_num) (n + 1)
  have h3 : 2 ^ (Nat.log 2 (n + 1) + 1) = 2 * 2 ^ Nat.log 2 (n + 1) := by
    rw [pow_succ]; ring
  refine ⟨Nat.log 2 (n + 1), n + 1 - 2 ^ Nat.log 2 (n + 1), ?_, by omega, ?_⟩
  · by_contra hcon
    have h4 : 2 ^ (L + 1) ≤ 2 ^ Nat.log 2 (n + 1) :=
      Nat.pow_le_pow_right (by norm_num) (by omega)
    unfold numNodes at hn
    omega
  · unfold node_index
    omega

theorem mem_path_nodes {L x l idx : Nat} :
    (l, idx) ∈ path_nodes L x ↔
      l ≤ L ∧ idx = (if 0 < l then x >>> (L - l) else 0) := by
  unfold path_nodes
  simp only [List.mem_map, List.mem_range, Prod.mk.injEq]
  constructor
  · rintro ⟨a, ha, h1, h2⟩
    subst h1
    exact ⟨by omega, h2.symm⟩
  · rintro ⟨hl, hidx⟩
    exact ⟨l, by omega, rfl, hidx.symm⟩

theorem path_nodes_bounds {L x : Nat} (hx : x < 2 ^ L) {li : Nat × Nat}
    (h : li ∈ path_nodes L x) :
    li.1 ≤ L ∧ li.2 < 2 ^ li.1 ∧ node_index li.1 li.2 < numNodes L := by
  obtain ⟨l, idx⟩ := li
  rw [mem_path_nodes] at h
  obtain ⟨hl, hidx⟩ := h
  have hlt : idx < 2 ^ l := by
    subst hidx
    by_cases h0 : 0 < l
    · rw [if_pos h0]; exact shiftRight_lt hx hl
    · rw [if_neg h0]; exact Nat.pos_pow_of_pos l (by norm_num)
  exact ⟨hl, hlt, node_index_lt hl hlt⟩

theorem mem_path_nodes_of_subtree {L x l idx : Nat} (hl : l ≤ L)
    (hidx : idx < 2 ^ l) (hrel : 0 < l → x >>> (L - l) = idx) :
    (l, idx) ∈ path_nodes L x := by
  rw [mem_path_nodes]
  refine ⟨hl, ?_⟩
  by_cases h0 : 0 < l
  · rw [if_pos h0, hrel h0]
  · rw [if_neg h0]
    have : l = 0 := by omega
    subst this
    simp at hidx
    omega

theorem pathIdxs_nodup {L x : Nat} (hx : x < 2 ^ L) : (pathIdxs L x).Nodup := by
  unfold pathIdxs
  apply List.Nodup.map_on
  · intro li hli li' hli' heq
    obtain ⟨h1, h2, _⟩ := path_nodes_bounds hx hli
    obtain ⟨h1', h2', _⟩ := path_nodes_bounds hx hli'
    obtain ⟨hl, hidx⟩ := node_index_inj h2 h2' heq
    exact Prod.ext hl hidx
  · unfold path_nodes
    apply List.Nodup.map_on
    · intro a _ b _ heq
      exact (Prod.mk.injEq .. ▸ heq).1
    · exact List.nodup_range (L + 1)

/-! ## Dict lemmas -/

theorem mem_dictKeys {d : List (Nat × PyVal)} {k : Nat} :
    k ∈ dictKeys d ↔ ∃ v, (k, v) ∈ d := by
  unfold dictKeys
  simp only [List.mem_map]
  constructor
  · rintro ⟨⟨k', v⟩, hm, rfl⟩
    exact ⟨v, hm⟩
  · rintro ⟨v, hm⟩
    exact ⟨(k, v), hm, rfl⟩

theorem dictKeys_append (a b : List (Nat × PyVal)) :
    dictKeys (a ++ b) = dictKeys a ++ dictKeys b :=
  List.map_append _ a b

theorem dict_any_iff {d : List (Nat × PyVal)} {k : Nat} :
    (d.any (fun p => p.1 == k)) = true ↔ k ∈ dictKeys d := by
  rw [List.any_eq_true]
  constructor
  · rintro ⟨p, hp, hk⟩
    rw [mem_dictKeys]
    exact ⟨p.2, by rwa [show (k, p.2) = p from Prod.ext (beq_iff_eq .. |>.mp hk).symm rfl]⟩
  · intro hm
    obtain ⟨v, hv⟩ := mem_dictKeys.mp hm
    exact ⟨(k, v), hv, by simp⟩

theorem dictInsert_of_not_mem {d : List (Nat × PyVal)} {k : Nat} (v : PyVal)
    (h : k ∉ dictKeys d) : dictInsert d k v = d ++ [(k, v)] := by
  unfold dictInsert
  rw [if_neg]
  intro hcon
  exact h (dict_any_iff.mp hcon)

theorem dictInsert_of_mem {d : List (Nat × PyVal)} {k : Nat} (v : PyVal)
    (h : k ∈ dictKeys d) :
    dictInsert d k v = d.map (fun p => if p.1 == k then (k, v) else p) := by
  unfold dictInsert
  rw [if_pos (dict_any_iff.mpr h)]

theorem dictKeys_insert_of_mem {d : List (Nat × PyVal)} {k : Nat} (v : PyVal)
    (h : k ∈ dictKeys d) : dictKeys (dictInsert d k v) = dictKeys d := by
  rw [dictInsert_of_mem v h]
  unfold dictKeys
  rw [List.map_map]
  apply List.map_congr_left
  intro p _
  by_cases hk : p.1 = k
  · simp [hk]
  · simp [hk]

theorem mem_dictInsert_self {d : List (Nat × PyVal)} (k : Nat) (v : PyVal) :
    (k, v) ∈ dictInsert d k v := by
  by_cases h : k ∈ dictKeys d
  · rw [dictInsert_of_mem v h]
    obtain ⟨w, hw⟩ := mem_dictKeys.mp h
    refine List.mem_map.mpr ⟨(k, w), hw, ?_⟩
    show (if ((k, w).1 == k) = true then (k, v) else (k, w)) = (k, v)
    rw [if_pos]
    exact beq_iff_eq.mpr rfl
  · rw [dictInsert_of_not_mem v h]
    exact List.mem_append_right d (List.mem_singleton.mpr rfl)

theorem filter_ne_map_replace (d : List (Nat × PyVal)) (k : Nat) (v : PyVal) :
    (d.map (fun p => if p.1 == k then (k, v) else p)).filter (fun p => !(p.1 == k)) =
      d.filter (fun p => !(p.1 == k)) := by
  induction d with
  | nil => rfl
  | cons p d ih =>
    rw [List.map_cons, List.filter_cons, List.filter_cons]
    cases hk : (p.1 == k) with
    | true =>
      simp at ih ⊢
      exact ih
    | false =>
      have hk' : ¬(p.1 = k) := by intro hcon; rw [hcon] at hk; simp at hk
      simp [hk'] at ih ⊢
      exact ih

theorem dictInsert_filter_ne (d : List (Nat × PyVal)) (k : Nat) (v : PyVal) :
    (dictInsert d k v).filter (fun p => !(p.1 == k)) =
      d.filter (fun p => !(p.1 == k)) := by
  by_cases h : k ∈ dictKeys d
  · rw [dictInsert_of_mem v h, filter_ne_map_replace]
  · rw [dictInsert_of_not_mem v h, List.filter_append]
    simp

theorem dictGet_cons (p : Nat × PyVal) (d : List (Nat × PyVal)) (k : Nat) :
    dictGet (p :: d) k = if p.1 = k then some p.2 else dictGet d k := by
  unfold dictGet
  rw [List.find?_cons]
  by_cases hk : p.1 = k
  · have hb : (p.1 == k) = true := by simp [hk]
    rw [hb, if_pos hk]
    rfl
  · have hb : (p.1 == k) = false := by simp [hk]
    rw [hb, if_neg hk]

theorem dictGet_eq_some_of_mem {d : List (Nat × PyVal)} {k : Nat} {v : PyVal}
    (hnd : (dictKeys d).Nodup) (hm : (k, v) ∈ d) : dictGet d k = some v := by
  induction d with
  | nil => cases hm
  | cons p d ih =>
    unfold dictKeys at hnd
    rw [List.map_cons, List.nodup_cons] at hnd
    rw [dictGet_cons]
    by_cases hk : p.1 = k
    · rw [if_pos hk]
      rcases List.mem_cons.mp hm with rfl | hmem
      · rfl
      · exfalso
        apply hnd.1
        rw [hk]
        exact mem_dictKeys.mpr ⟨v, hmem⟩
    · rw [if_neg hk]
      rcases List.mem_cons.mp hm with rfl | hmem
      · exact absurd rfl hk
      · exact ih hnd.2 hmem

theorem mem_of_dictGet {d : List (Nat × PyVal)} {k : Nat} {v : PyVal}
    (hg : dictGet d k = some v) : (k, v) ∈ d := by
  unfold dictGet at hg
  obtain ⟨p, hp, hmap⟩ := Option.map_eq_some'.mp hg
  have hmem := List.mem_of_find?_eq_some hp
  have hpred := List.find?_some hp
  have hk : p.1 = k := beq_iff_eq .. |>.mp hpred
  have hpv : p = (k, v) := Prod.ext hk hmap
  rwa [← hpv]

theorem dictPop_decomp {d : List (Nat × PyVal)} {k : Nat}
    (hm : k ∈ dictKeys d) :
    ∃ v d1 d2, d = d1 ++ (k, v) :: d2 ∧ (∀ p ∈ d1, p.1 ≠ k) ∧
      dictPop d k = d1 ++ d2 ∧ dictGet d k = some v := by
  obtain ⟨v0, hv0⟩ := mem_dictKeys.mp hm
  obtain ⟨a, d1, d2, hnot, hpred, hdecomp, herase⟩ :=
    List.exists_of_eraseP (p := fun p => p.1 == k) hv0 (by simp)
  have hak : a.1 = k := beq_iff_eq .. |>.mp hpred
  refine ⟨a.2, d1, d2, ?_, ?_, herase, ?_⟩
  · rw [hdecomp]
    congr 1
    rw [show (k, a.2) = a from Prod.ext hak.symm rfl]
  · intro p hp hcon
    exact hnot p hp (by simp [hcon])
  · rw [hdecomp]
    unfold dictGet
    rw [List.find?_append]
    have h1 : d1.find? (fun p => p.1 == k) = none := by
      rw [List.find?_eq_none]
      intro p hp
      simp only [beq_iff_eq]
      intro hcon
      exact hnot p hp (by simp [hcon])
    rw [h1, Option.none_or, List.find?_cons]
    simp [hpred]

theorem dictPop_perm {d : List (Nat × PyVal)} {k : Nat} {v : PyVal}
    (hg : dictGet d k = some v) (hm : k ∈ dictKeys d) :
    d.Perm ((k, v) :: dictPop d k) := by
  obtain ⟨v', d1, d2, hdecomp, _, herase, hget⟩ := dictPop_decomp hm
  have hv : v' = v := by
    rw [hg] at hget
    exact (Option.some.inj hget).symm
  subst hv
  rw [herase, hdecomp]
  exact List.perm_middle

theorem stash_absorb (b : List (Nat × PyVal)) :
    ∀ st, (dictKeys st ++ dictKeys b).Nodup →
      b.foldl (fun st p => dictInsert st p.1 p.2) st = st ++ b := by
  induction b with
  | nil => intro st _; simp
  | cons p b ih =>
    intro st hnd
    have hnotin : p.1 ∉ dictKeys st := by
      intro hcon
      obtain ⟨_, _, hdisj⟩ := List.nodup_append.mp hnd
      exact hdisj hcon (by unfold dictKeys; rw [List.map_cons]; exact List.mem_cons_self _ _)
    have heq : dictKeys (st ++ [p]) ++ dictKeys b = dictKeys st ++ dictKeys (p :: b) := by
      unfold dictKeys
      rw [List.map_append, List.append_assoc]
      rfl
    rw [List.foldl_cons, dictInsert_of_not_mem p.2 hnotin]
    show b.foldl (fun st p => dictInsert st p.1 p.2) (st ++ [p]) = st ++ p :: b
    rw [ih (st ++ [p]) (by rw [heq]; exact hnd)]
    simp

/-! ## Field-preservation lemmas -/

theorem setBucket_N (s : PathORAM) (l idx : Nat) (b : List (Nat × PyVal)) :
    (setBucket s l idx b).N = s.N := rfl

theorem setBucket_treeLen (s : PathORAM) (l idx : Nat) (b : List (Nat × PyVal)) :
    (setBucket s l idx b).tree.length = s.tree.length := List.length_set ..

theorem readPath_N (s : PathORAM) (x : Nat) : (readPath s x).N = s.N :=
  foldl_preserve readPathStep PathORAM.N (fun _ _ => rfl) _ s

theorem readPath_Z (s : PathORAM) (x : Nat) : (readPath s x).Z = s.Z :=
  foldl_preserve readPathStep PathORAM.Z (fun _ _ => rfl) _ s

theorem readPath_L (s : PathORAM) (x : Nat) : (readPath s x).L = s.L :=
  foldl_preserve readPathStep PathORAM.L (fun _ _ => rfl) _ s

theorem readPath_position (s : PathORAM) (x : Nat) :
    (readPath s x).position = s.position :=
  foldl_preserve readPathStep PathORAM.position (fun _ _ => rfl) _ s

theorem readPath_rng (s : PathORAM) (x : Nat) : (readPath s x).rng = s.rng :=
  foldl_preserve readPathStep PathORAM.rng (fun _ _ => rfl) _ s

theorem readPath_treeLen (s : PathORAM) (x : Nat) :
    (readPath s x).tree.length = s.tree.length :=
  foldl_preserve readPathStep (fun s => s.tree.length)
    (fun _ _ => List.length_set ..) _ s

theorem evictMove_N (l idx : Nat) (s : PathORAM) (bid : Nat) :
    (evictMove l idx s bid).N = s.N := rfl

theorem evictMove_treeLen (l idx : Nat) (s : PathORAM) (bid : Nat) :
    (evictMove l idx s bid).tree.length = s.tree.length := List.length_set ..

theorem evictLevel_preserve {γ : Type _} (P : PathORAM → γ)
    (h : ∀ l idx s bid, P (evictMove l idx s bid) = P s) (s : PathORAM) (x l : Nat) :
    P (evictLevel s x l) = P s := by
  unfold evictLevel
  dsimp only
  split <;> split <;>
    first
      | rfl
      | exact foldl_preserve _ P (h _ _) _ s

theorem evictLevel_N (s : PathORAM) (x l : Nat) : (evictLevel s x l).N = s.N :=
  evictLevel_preserve PathORAM.N (fun _ _ _ _ => rfl) s x l

theorem evictLevel_Z (s : PathORAM) (x l : Nat) : (evictLevel s x l).Z = s.Z :=
  evictLevel_preserve PathORAM.Z (fun _ _ _ _ => rfl) s x l

theorem evictLevel_L (s : PathORAM) (x l : Nat) : (evictLevel s x l).L = s.L :=
  evictLevel_preserve PathORAM.L (fun _ _ _ _ => rfl) s x l

theorem evictLevel_position (s : PathORAM) (x l : Nat) :
    (evictLevel s x l).position = s.position :=
  evictLevel_preserve PathORAM.position (fun _ _ _ _ => rfl) s x l

theorem evictLevel_rng (s : PathORAM) (x l : Nat) :
    (evictLevel s x l).rng = s.rng :=
  evictLevel_preserve PathORAM.rng (fun _ _ _ _ => rfl) s x l

theorem evictLevel_treeLen (s : PathORAM) (x l : Nat) :
    (evictLevel s x l).tree.length = s.tree.length :=
  evictLevel_preserve (fun s => s.tree.length) (fun _ _ _ _ => List.length_set ..) s x l

theorem evictPath_N (s : PathORAM) (x : Nat) : (evictPath s x).N = s.N :=
  foldl_preserve _ PathORAM.N (fun s' l => evictLevel_N s' x l) _ s

theorem evictPath_Z (s : PathORAM) (x : Nat) : (evictPath s x).Z = s.Z :=
  foldl_preserve _ PathORAM.Z (fun s' l => evictLevel_Z s' x l) _ s

theorem evictPath_L (s : PathORAM) (x : Nat) : (evictPath s x).L = s.L :=
  foldl_preserve _ PathORAM.L (fun s' l => evictLevel_L s' x l) _ s

theorem evictPath_position (s : PathORAM) (x : Nat) :
    (evictPath s x).position = s.position :=
  foldl_preserve _ PathORAM.position (fun s' l => evictLevel_position s' x l) _ s

theorem evictPath_treeLen (s : PathORAM) (x : Nat) :
    (evictPath s x).tree.length = s.tree.length :=
  foldl_preserve _ (fun s => s.tree.length)
    (fun s' l => evictLevel_treeLen s' x l) _ s

/-! ## Tree decomposition -/

theorem tree_decomp {α : Type _} (t : List α) (n : Nat) (d : α)
    (hn : n < t.length) :
    ∃ t1 t2, t = t1 ++ t.getD n d :: t2 ∧ t1.length = n ∧
      ∀ b, t.set n b = t1 ++ b :: t2 := by
  refine ⟨t.take n, t.drop (n + 1), ?_, ?_, ?_⟩
  · rw [List.getD_eq_getElem?_getD, List.getElem?_eq_getElem hn]
    show t = t.take n ++ t[n] :: t.drop (n + 1)
    rw [List.getElem_cons_drop, List.take_append_drop]
  · rw [List.length_take]
    omega
  · intro b
    rw [List.set_eq_take_append_cons_drop, if_pos hn]

/-! ## The path read-and-clear phase -/

theorem readPath_fold_spec :
    ∀ (nodes : List (Nat × Nat)) (s : PathORAM),
      (∀ li ∈ nodes, node_index li.1 li.2 < s.tree.length) →
      ((nodes.map (fun li => node_index li.1 li.2)).Nodup) →
      (allKeys s).Nodup →
      (nodes.foldl readPathStep s).stash =
          s.stash ++ (nodes.map (fun li => bucket s li.1 li.2)).flatten ∧
      (∀ n, n ∉ nodes.map (fun li => node_index li.1 li.2) →
        (nodes.foldl readPathStep s).tree.getD n [] = s.tree.getD n []) ∧
      (∀ li ∈ nodes, bucket (nodes.foldl readPathStep s) li.1 li.2 = []) ∧
      ((allPairs (nodes.foldl readPathStep s)).Perm (allPairs s)) := by
  intro nodes
  induction nodes with
  | nil =>
    intro s _ _ _
    exact ⟨by simp, fun n _ => rfl, by simp, List.Perm.refl _⟩
  | cons li rest ih =>
    intro s hb hnd hkeys
    have hnlt : node_index li.1 li.2 < s.tree.length :=
      hb li (List.mem_cons_self li rest)
    obtain ⟨t1, t2, hdec, hlen1, hset⟩ :=
      tree_decomp s.tree (node_index li.1 li.2) [] hnlt
    have hflat : s.tree.flatten =
        t1.flatten ++ (bucket s li.1 li.2 ++ t2.flatten) := by
      conv_lhs => rw [hdec]
      rw [List.flatten_append, List.flatten_cons]
      rfl
    have hstep_stash : (readPathStep s li).stash =
        s.stash ++ bucket s li.1 li.2 := by
      show (bucket s li.1 li.2).foldl (fun st p => dictInsert st p.1 p.2) s.stash = _
      apply stash_absorb
      have hsub : (dictKeys s.stash ++ dictKeys (bucket s li.1 li.2)).Sublist
          (allKeys s) := by
        unfold allKeys allPairs dictKeys
        rw [hflat, List.map_append, List.map_append, List.map_append]
        apply List.Sublist.append_left
        exact (List.sublist_append_left _ _).trans (List.sublist_append_right _ _)
      exact hsub.nodup hkeys
    have hstep_tree : (readPathStep s li).tree =
        s.tree.set (node_index li.1 li.2) [] := rfl
    have hstep_pairs : (allPairs (readPathStep s li)).Perm (allPairs s) := by
      unfold allPairs
      rw [hstep_stash, hstep_tree, hset [], List.flatten_append, List.flatten_cons,
        List.nil_append]
      conv_rhs => rw [hflat]
      rw [List.append_assoc]
      apply List.Perm.append_left
      have h2 : ((bucket s li.1 li.2 ++ t1.flatten) ++ t2.flatten).Perm
          (t1.flatten ++ (bucket s li.1 li.2 ++ t2.flatten)) := by
        have hc :=
          (@List.perm_append_comm _ (bucket s li.1 li.2) t1.flatten).append_right t2.flatten
        rw [← List.append_assoc]
        exact hc
      rw [← List.append_assoc]
      exact h2
    have hndc : node_index li.1 li.2 ∉ rest.map (fun q => node_index q.1 q.2) ∧
        (rest.map (fun q => node_index q.1 q.2)).Nodup := by
      rw [List.map_cons, List.nodup_cons] at hnd
      exact hnd
    have hb' : ∀ li' ∈ rest, node_index li'.1 li'.2 < (readPathStep s li).tree.length := by
      rw [hstep_tree, List.length_set]
      exact fun li' h => hb li' (List.mem_cons_of_mem _ h)
    have hkeys' : (allKeys (readPathStep s li)).Nodup := by
      have := (hstep_pairs.map Prod.fst).nodup_iff
      unfold allKeys
      exact this.mpr hkeys
    obtain ⟨ih1, ih2, ih3, ih4⟩ := ih (readPathStep s li) hb' hndc.2 hkeys'
    have hbne : ∀ li' ∈ rest, bucket (readPathStep s li) li'.1 li'.2 =
        bucket s li'.1 li'.2 := by
      intro li' h
      have hne : node_index li.1 li.2 ≠ node_index li'.1 li'.2 := by
        intro hcon
        exact hndc.1 (hcon ▸ List.mem_map_of_mem (fun li => node_index li.1 li.2) h)
      unfold bucket
      rw [hstep_tree]
      exact getD_set_ne _ hne _ _
    rw [List.foldl_cons]
    refine ⟨?_, ?_, ?_, ih4.trans hstep_pairs⟩
    · rw [ih1, hstep_stash, List.map_cons, List.flatten_cons,
        List.map_congr_left hbne, List.append_assoc]
    · intro n hn
      rw [List.map_cons, List.mem_cons] at hn
      push_neg at hn
      rw [ih2 n hn.2, hstep_tree, getD_set_ne _ (fun h => hn.1 h.symm) _ _]
    · intro li'' hmem
      rcases List.mem_cons.mp hmem with rfl | hmem'
      · unfold bucket
        rw [ih2 _ hndc.1, hstep_tree]
        exact getD_set_self _ _ _ _ hnlt
      · exact ih3 li'' hmem'

theorem readPath_spec (s : PathORAM) (x : Nat) (hx : x < 2 ^ s.L)
    (htl : s.tree.length = numNodes s.L) (hkeys : (allKeys s).Nodup) :
    (readPath s x).stash =
        s.stash ++ ((path_nodes s.L x).map (fun li => bucket s li.1 li.2)).flatten ∧
    (∀ n, n ∉ pathIdxs s.L x →
      (readPath s x).tree.getD n [] = s.tree.getD n []) ∧
    (∀ li ∈ path_nodes s.L x, bucket (readPath s x) li.1 li.2 = []) ∧
    (allPairs (readPath s x)).Perm (allPairs s) := by
  have hb : ∀ li ∈ path_nodes s.L x, node_index li.1 li.2 < s.tree.length := by
    intro li h
    rw [htl]
    exact (path_nodes_bounds hx h).2.2
  have hnd : ((path_nodes s.L x).map (fun li => node_index li.1 li.2)).Nodup :=
    pathIdxs_nodup hx
  exact readPath_fold_spec (path_nodes s.L x) s hb hnd hkeys

/-! ## Eviction -/

theorem evictChoose_eq_take :
    ∀ (ks : List Nat) (q : Nat → Bool) (cap : Nat) (acc : List Nat),
      acc.length < cap →
      evictChoose ks q cap acc = acc ++ (ks.filter q).take (cap - acc.length) := by
  intro ks
  induction ks with
  | nil =>
    intro q cap acc _
    simp [evictChoose]
  | cons k ks ih =>
    intro q cap acc hacc
    unfold evictChoose
    by_cases hq : q k = true
    · rw [if_pos hq, List.filter_cons_of_pos hq]
      by_cases hlen : (acc ++ [k]).length = cap
      · rw [if_pos hlen]
        rw [List.length_append, List.length_singleton] at hlen
        have hc1 : cap - acc.length = 1 := by omega
        rw [hc1, List.take_succ_cons, List.take_zero]
      · rw [if_neg hlen]
        rw [List.length_append, List.length_singleton] at hlen
        rw [ih q cap (acc ++ [k]) (by rw [List.length_append, List.length_singleton]; omega)]
        have hc1 : cap - acc.length = (cap - (acc ++ [k]).length) + 1 := by
          rw [List.length_append, List.length_singleton]
          omega
        rw [hc1, List.take_succ_cons, List.append_assoc, List.singleton_append]
    · rw [if_neg hq, List.filter_cons_of_neg (by simpa using hq)]
      exact ih q cap acc hacc

theorem stash_keys_nodup {s : PathORAM} (hkeys : (allKeys s).Nodup) :
    (dictKeys s.stash).Nodup := by
  have hsub : (dictKeys s.stash).Sublist (allKeys s) := by
    unfold allKeys allPairs dictKeys
    rw [List.map_append]
    exact List.sublist_append_left _ _
  exact hsub.nodup hkeys

theorem evictMove_fold_spec :
    ∀ (chosen : List Nat) (s : PathORAM) (l idx : Nat),
      node_index l idx < s.tree.length →
      (allKeys s).Nodup →
      chosen.Nodup →
      (∀ k ∈ chosen, k ∈ dictKeys s.stash) →
      (allPairs (chosen.foldl (evictMove l idx) s)).Perm (allPairs s) ∧
      (∀ n, n ≠ node_index l idx →
        (chosen.foldl (evictMove l idx) s).tree.getD n [] = s.tree.getD n []) ∧
      (∃ moved : List (Nat × PyVal),
        bucket (chosen.foldl (evictMove l idx) s) l idx = bucket s l idx ++ moved ∧
        moved.map Prod.fst = chosen) ∧
      (∀ k ∈ dictKeys (chosen.foldl (evictMove l idx) s).stash,
        k ∈ dictKeys s.stash) := by
  intro chosen
  induction chosen with
  | nil =>
    intro s l idx _ _ _ _
    exact ⟨List.Perm.refl _, fun _ _ => rfl, ⟨[], by simp, rfl⟩, fun k h => h⟩
  | cons bid rest ih =>
    intro s l idx hni hkeys hnd hsub
    have hbk : bucket s l idx = s.tree.getD (node_index l idx) [] := rfl
    have hbid : bid ∈ dictKeys s.stash := hsub bid (List.mem_cons_self ..)
    obtain ⟨v, d1, d2, hsd, hd1, hpop, hget⟩ := dictPop_decomp hbid
    have hstep_stash : (evictMove l idx s bid).stash = dictPop s.stash bid := rfl
    have hstep_tree : (evictMove l idx s bid).tree =
        s.tree.set (node_index l idx) (bucket s l idx ++ [(bid, v)]) := by
      show s.tree.set _ (bucket s l idx ++ [(bid, (dictGet s.stash bid).getD PyVal.none)]) = _
      rw [hget]
      rfl
    obtain ⟨t1, t2, hdec, _, hset⟩ := tree_decomp s.tree (node_index l idx) [] hni
    have hstashperm : s.stash.Perm ((bid, v) :: dictPop s.stash bid) :=
      dictPop_perm hget hbid
    have hstep_pairs : (allPairs (evictMove l idx s bid)).Perm (allPairs s) := by
      unfold allPairs
      rw [hstep_stash, hstep_tree, hset]
      conv_rhs => rw [hdec]
      rw [List.flatten_append, List.flatten_cons, List.flatten_append,
        List.flatten_cons]
      rw [List.perm_iff_count]
      intro p
      have hc := hstashperm.count_eq p
      simp only [List.count_append, List.count_cons, List.count_nil, hbk,
        beq_iff_eq] at hc ⊢
      omega
    have hstash_sub : ∀ k ∈ dictKeys (dictPop s.stash bid), k ∈ dictKeys s.stash := by
      intro k hk
      rw [hpop, dictKeys_append] at hk
      rw [hsd, dictKeys_append]
      rcases List.mem_append.mp hk with h | h
      · exact List.mem_append_left _ h
      · apply List.mem_append_right
        show k ∈ dictKeys ((bid, v) :: d2)
        unfold dictKeys
        rw [List.map_cons]
        exact List.mem_cons_of_mem _ h
    have hrest_sub : ∀ k ∈ rest, k ∈ dictKeys (dictPop s.stash bid) := by
      intro k hk
      have hkm : k ∈ dictKeys s.stash := hsub k (List.mem_cons_of_mem _ hk)
      have hkne : k ≠ bid := by
        intro hcon
        exact (List.nodup_cons.mp hnd).1 (hcon ▸ hk)
      rw [hsd, dictKeys_append] at hkm
      rw [hpop, dictKeys_append]
      rcases List.mem_append.mp hkm with h | h
      · exact List.mem_append_left _ h
      · apply List.mem_append_right
        have : k ∈ dictKeys ((bid, v) :: d2) := h
        unfold dictKeys at this
        rw [List.map_cons] at this
        rcases List.mem_cons.mp this with h' | h'
        · exact absurd h' hkne
        · exact h'
    have hkeys' : (allKeys (evictMove l idx s bid)).Nodup :=
      ((hstep_pairs.map Prod.fst).nodup_iff).mpr hkeys
    have hni' : node_index l idx < (evictMove l idx s bid).tree.length := by
      rw [hstep_tree, List.length_set]
      exact hni
    obtain ⟨ih1, ih2, ⟨moved, ihm1, ihm2⟩, ih4⟩ :=
      ih (evictMove l idx s bid) l idx hni' hkeys' (List.nodup_cons.mp hnd).2 hrest_sub
    have hstep_bucket : bucket (evictMove l idx s bid) l idx =
        bucket s l idx ++ [(bid, v)] := by
      unfold bucket
      rw [hstep_tree]
      exact getD_set_self _ _ _ _ hni
    rw [List.foldl_cons]
    refine ⟨ih1.trans hstep_pairs, ?_, ?_, ?_⟩
    · intro n hn
      rw [ih2 n hn]
      unfold bucket at hstep_tree
      rw [hstep_tree]
      exact getD_set_ne _ (fun h => hn h.symm) _ _
    · refine ⟨(bid, v) :: moved, ?_, ?_⟩
      · rw [ihm1, hstep_bucket, List.append_assoc, List.singleton_append]
      · rw [List.map_cons, ihm2]
    · intro k hk
      exact hstash_sub k (ih4 k hk)

theorem evictLevel_spec (s : PathORAM) (x l : Nat) (hl : l ≤ s.L) (hx : x < 2 ^ s.L)
    (htl : s.tree.length = numNodes s.L) (hkeys : (allKeys s).Nodup) :
    (allPairs (evictLevel s x l)).Perm (allPairs s) ∧
    (∀ n, n ≠ node_index l (if 0 < l then x >>> (s.L - l) else 0) →
      (evictLevel s x l).tree.getD n [] = s.tree.getD n []) ∧
    (∀ p ∈ bucket (evictLevel s x l) l (if 0 < l then x >>> (s.L - l) else 0),
      p ∈ bucket s l (if 0 < l then x >>> (s.L - l) else 0) ∨
        same_subtree_at_level s.L (s.position.getD p.1 0) x l = true) ∧
    ((bucket s l (if 0 < l then x >>> (s.L - l) else 0)).length ≤ s.Z →
      (bucket (evictLevel s x l) l
        (if 0 < l then x >>> (s.L - l) else 0)).length ≤ s.Z) := by
  have hidx : (if 0 < l then x >>> (s.L - l) else 0) < 2 ^ l := by
    by_cases h0 : 0 < l
    · rw [if_pos h0]; exact shiftRight_lt hx hl
    · rw [if_neg h0]; exact Nat.pos_pow_of_pos _ (by norm_num)
  unfold evictLevel
  dsimp only
  generalize hgen : (if 0 < l then x >>> (s.L - l) else 0) = idx at hidx ⊢
  have hni : node_index l idx < s.tree.length := htl ▸ node_index_lt hl hidx
  split
  · rename_i hfull
    exact ⟨List.Perm.refl _, fun _ _ => rfl, fun p hp => Or.inl hp, fun h => h⟩
  · rename_i hnotfull
    have hcap1 : 0 < s.Z - (bucket s l idx).length := by omega
    have hchosen_eq : evictChoose (dictKeys s.stash)
        (fun bid => same_subtree_at_level s.L (s.position.getD bid 0) x l)
        (s.Z - (bucket s l idx).length) [] =
        ((dictKeys s.stash).filter
          (fun bid => same_subtree_at_level s.L (s.position.getD bid 0) x l)).take
          (s.Z - (bucket s l idx).length) := by
      rw [evictChoose_eq_take _ _ _ [] (by simpa using hcap1)]
      simp
    have hsubl : (evictChoose (dictKeys s.stash)
        (fun bid => same_subtree_at_level s.L (s.position.getD bid 0) x l)
        (s.Z - (bucket s l idx).length) []).Sublist
        ((dictKeys s.stash).filter
          (fun bid => same_subtree_at_level s.L (s.position.getD bid 0) x l)) := by
      rw [hchosen_eq]
      exact List.take_sublist _ _
    have hsubk : (evictChoose (dictKeys s.stash)
        (fun bid => same_subtree_at_level s.L (s.position.getD bid 0) x l)
        (s.Z - (bucket s l idx).length) []).Sublist (dictKeys s.stash) :=
      hsubl.trans (List.filter_sublist _)
    have hnodup := hsubk.nodup (stash_keys_nodup hkeys)
    have hmem : ∀ k ∈ evictChoose (dictKeys s.stash)
        (fun bid => same_subtree_at_level s.L (s.position.getD bid 0) x l)
        (s.Z - (bucket s l idx).length) [], k ∈ dictKeys s.stash :=
      fun k hk => hsubk.subset hk
    have hqual : ∀ k ∈ evictChoose (dictKeys s.stash)
        (fun bid => same_subtree_at_level s.L (s.position.getD bid 0) x l)
        (s.Z - (bucket s l idx).length) [],
        same_subtree_at_level s.L (s.position.getD k 0) x l = true :=
      fun k hk => (List.mem_filter.mp (hsubl.subset hk)).2
    have hchlen : (evictChoose (dictKeys s.stash)
        (fun bid => same_subtree_at_level s.L (s.position.getD bid 0) x l)
        (s.Z - (bucket s l idx).length) []).length ≤
        s.Z - (bucket s l idx).length := by
      rw [hchosen_eq]
      exact List.length_take_le ..
    obtain ⟨h1, h2, ⟨moved, hm1, hm2⟩, _⟩ :=
      evictMove_fold_spec _ s l idx hni hkeys hnodup hmem
    refine ⟨h1, h2, ?_, ?_⟩
    · intro p hp
      rw [hm1] at hp
      rcases List.mem_append.mp hp with h | h
      · exact Or.inl h
      · refine Or.inr (hqual p.1 ?_)
        rw [← hm2]
        exact List.mem_map_of_mem Prod.fst h
    · intro _
      rw [hm1, List.length_append]
      have hmlen : moved.length = (moved.map Prod.fst).length :=
        (List.length_map ..).symm
      rw [hm2] at hmlen
      omega

theorem ni_mem_pathIdxs {L x l : Nat} (hl : l ≤ L) :
    node_index l (if 0 < l then x >>> (L - l) else 0) ∈ pathIdxs L x := by
  unfold pathIdxs
  exact List.mem_map_of_mem _ (mem_path_nodes.mpr ⟨hl, rfl⟩)

theorem evictLevels_fold_spec :
    ∀ (ls : List Nat) (s : PathORAM) (x : Nat),
      (∀ l ∈ ls, l ≤ s.L) → x < 2 ^ s.L → s.tree.length = numNodes s.L →
      (allKeys s).Nodup → CapOK s → SubtreeOK s →
      (allPairs (ls.foldl (fun s' l => evictLevel s' x l) s)).Perm (allPairs s) ∧
      (∀ n, n ∉ pathIdxs s.L x →
        (ls.foldl (fun s' l => evictLevel s' x l) s).tree.getD n [] =
          s.tree.getD n []) ∧
      CapOK (ls.foldl (fun s' l => evictLevel s' x l) s) ∧
      SubtreeOK (ls.foldl (fun s' l => evictLevel s' x l) s) := by
  intro ls
  induction ls with
  | nil =>
    intro s x _ _ _ _ hcap hsub
    exact ⟨List.Perm.refl _, fun _ _ => rfl, hcap, hsub⟩
  | cons l rest ih =>
    intro s x hls hx htl hkeys hcap hsub
    have hl : l ≤ s.L := hls l (List.mem_cons_self ..)
    have hidx : (if 0 < l then x >>> (s.L - l) else 0) < 2 ^ l := by
      by_cases h0 : 0 < l
      · rw [if_pos h0]; exact shiftRight_lt hx hl
      · rw [if_neg h0]; exact Nat.pos_pow_of_pos _ (by norm_num)
    obtain ⟨e1, e2, e3, e4⟩ := evictLevel_spec s x l hl hx htl hkeys
    have hcap1 : CapOK (evictLevel s x l) := by
      intro n
      rw [show (evictLevel s x l).Z = s.Z from evictLevel_Z s x l]
      by_cases hn : n = node_index l (if 0 < l then x >>> (s.L - l) else 0)
      · subst hn
        exact e4 (hcap _)
      · rw [e2 n hn]
        exact hcap n
    have hsub1 : SubtreeOK (evictLevel s x l) := by
      intro l' hl' idx' hidx' p hp h0
      rw [evictLevel_position, evictLevel_L]
      rw [evictLevel_L] at hl'
      by_cases hn : node_index l' idx' =
          node_index l (if 0 < l then x >>> (s.L - l) else 0)
      · obtain ⟨hll, hii⟩ := node_index_inj hidx' hidx hn
        rw [hll, hii] at hp ⊢
        rw [hll] at h0
        rcases e3 p hp with hold | hq
        · exact hsub l hl _ hidx p hold h0
        · unfold same_subtree_at_level at hq
          rw [if_neg (by omega)] at hq
          rw [if_pos h0]
          exact beq_iff_eq.mp hq
      · have hbeq : bucket (evictLevel s x l) l' idx' = bucket s l' idx' := e2 _ hn
        rw [hbeq] at hp
        exact hsub l' hl' idx' hidx' p hp h0
    have hls1 : ∀ l' ∈ rest, l' ≤ (evictLevel s x l).L := by
      rw [evictLevel_L]
      exact fun l' h => hls l' (List.mem_cons_of_mem _ h)
    have hx1 : x < 2 ^ (evictLevel s x l).L := by rw [evictLevel_L]; exact hx
    have htl1 : (evictLevel s x l).tree.length = numNodes (evictLevel s x l).L := by
      rw [evictLevel_treeLen, evictLevel_L]; exact htl
    have hkeys1 : (allKeys (evictLevel s x l)).Nodup :=
      ((e1.map Prod.fst).nodup_iff).mpr hkeys
    obtain ⟨i1, i2, i3, i4⟩ := ih (evictLevel s x l) x hls1 hx1 htl1 hkeys1 hcap1 hsub1
    rw [List.foldl_cons]
    refine ⟨i1.trans e1, ?_, i3, i4⟩
    intro n hn
    have hn1 : n ∉ pathIdxs (evictLevel s x l).L x := by
      rw [evictLevel_L]; exact hn
    rw [i2 n hn1]
    apply e2
    intro hcon
    exact hn (hcon ▸ ni_mem_pathIdxs hl)

/-! ## Construction lemmas -/

theorem listSwap_length (l : List Nat) (i j : Nat) :
    (listSwap l i j).length = l.length := by
  unfold listSwap
  rw [List.length_set, List.length_set]

theorem listSwap_perm (l : List Nat) (i j : Nat) (hi : i < l.length)
    (hj : j < l.length) : (listSwap l i j).Perm l := by
  unfold listSwap
  have hgj : l.getD j 0 = l[j] := by
    rw [List.getD_eq_getElem?_getD, List.getElem?_eq_getElem hj]
    rfl
  have hgi : l.getD i 0 = l[i] := by
    rw [List.getD_eq_getElem?_getD, List.getElem?_eq_getElem hi]
    rfl
  rw [hgj, hgi, List.perm_iff_count]
  intro b
  have h1 : j < (l.set i l[j]).length := by
    rw [List.length_set]
    exact hj
  rw [List.count_set _ _ _ _ h1, List.count_set _ _ _ _ hi]
  have hset2 : (l.set i l[j])[j] = l[j] := by
    rw [List.getElem_set]
    exact ite_self _
  rw [hset2]
  have hxle : (if (l[i] == b) = true then 1 else 0) ≤ List.count b l := by
    split
    · rename_i h
      exact List.count_pos_iff.mpr (beq_iff_eq.mp h ▸ List.getElem_mem ..)
    · exact Nat.zero_le _
  omega

theorem shuffleAux_perm : ∀ (k : Nat) (l : List Nat) (g : RNG), k < l.length →
    ((shuffleAux k l g).1).Perm l := by
  intro k
  induction k with
  | zero => intro l g _; exact List.Perm.refl _
  | succ i ih =>
    intro l g hk
    show ((shuffleAux i (listSwap l (i + 1) (g 0 % (i + 2))) g.next).1).Perm l
    have hswaplen : (listSwap l (i + 1) (g 0 % (i + 2))).length = l.length :=
      listSwap_length ..
    have h1 := ih (listSwap l (i + 1) (g 0 % (i + 2))) g.next
      (by rw [hswaplen]; omega)
    refine h1.trans (listSwap_perm l (i + 1) _ hk ?_)
    have := Nat.mod_lt (g 0) (show 0 < i + 2 by omega)
    omega

theorem shuffle_perm (l : List Nat) (g : RNG) : ((shuffle l g).1).Perm l := by
  unfold shuffle
  rcases Nat.eq_zero_or_pos l.length with h0 | hpos
  · rw [h0]
    exact List.Perm.refl l
  · exact shuffleAux_perm (l.length - 1) l g (by omega)

theorem randList_spec : ∀ (k n : Nat) (g : RNG), 0 < n →
    (randList k n g).1.length = k ∧ ∀ v ∈ (randList k n g).1, v < n := by
  intro k
  induction k with
  | zero => intro n g _; exact ⟨rfl, by intro v hv; cases hv⟩
  | succ m ih =>
    intro n g hn
    obtain ⟨hlen, hlt⟩ := ih n g.next hn
    refine ⟨by simp [randList, randrange, hlen], ?_⟩
    intro v hv
    rcases List.mem_cons.mp hv with rfl | hv'
    · exact Nat.mod_lt _ hn
    · exact hlt v hv'

theorem flatten_replicate_nil {α : Type _} :
    ∀ n, (List.replicate n ([] : List α)).flatten = []
  | 0 => rfl
  | n + 1 => by
    rw [List.replicate_succ, List.flatten_cons, List.nil_append]
    exact flatten_replicate_nil n

theorem getD_replicate_nil {α : Type _} (k n : Nat) :
    (List.replicate k ([] : List α)).getD n [] = [] := by
  rw [List.getD_eq_getElem?_getD, List.getElem?_replicate]
  split <;> rfl

theorem placeAt_spec :
    ∀ (ls : List Nat) (s : PathORAM) (leaf a : Nat) (s' : PathORAM),
      placeAt s leaf a ls = some s' →
      ∃ l, l ∈ ls ∧
        (bucket s l (if 0 < l then leaf >>> (s.L - l) else 0)).length < s.Z ∧
        s' = setBucket s l (if 0 < l then leaf >>> (s.L - l) else 0)
          (bucket s l (if 0 < l then leaf >>> (s.L - l) else 0) ++
            [(a, PyVal.int a)]) := by
  intro ls
  induction ls with
  | nil => intro s leaf a s' h; cases h
  | cons l ls ih =>
    intro s leaf a s' h
    unfold placeAt at h
    dsimp only at h
    by_cases h0 : 0 < l
    · rw [if_pos h0] at h
      split at h
      · rename_i hroom
        refine ⟨l, List.mem_cons_self .., ?_, ?_⟩
        · rw [if_pos h0]; exact hroom
        · rw [if_pos h0]; exact (Option.some.inj h).symm
      · obtain ⟨l', hmem, hroom, heq⟩ := ih s leaf a s' h
        exact ⟨l', List.mem_cons_of_mem _ hmem, hroom, heq⟩
    · rw [if_neg h0] at h
      split at h
      · rename_i hroom
        refine ⟨l, List.mem_cons_self .., ?_, ?_⟩
        · rw [if_neg h0]; exact hroom
        · rw [if_neg h0]; exact (Option.some.inj h).symm
      · obtain ⟨l', hmem, hroom, heq⟩ := ih s leaf a s' h
        exact ⟨l', List.mem_cons_of_mem _ hmem, hroom, heq⟩

theorem mem_levelsDesc {L l : Nat} : l ∈ levelsDesc L ↔ l ≤ L := by
  unfold levelsDesc
  rw [List.mem_reverse, List.mem_range]
  omega

theorem placeBlock_step_spec (s : PathORAM) (a : Nat) (haN : a < s.N)
    (hnotin : a ∉ allKeys s) (hplen : s.position.length = s.N)
    (hplt : ∀ p ∈ s.position, p < 2 ^ s.L) (htl : s.tree.length = numNodes s.L)
    (hcap : CapOK s) (hsub : SubtreeOK s) :
    (placeBlock s a).N = s.N ∧ (placeBlock s a).Z = s.Z ∧
    (placeBlock s a).L = s.L ∧ (placeBlock s a).position = s.position ∧
    (placeBlock s a).tree.length = s.tree.length ∧
    (allPairs (placeBlock s a)).Perm (allPairs s ++ [(a, PyVal.int a)]) ∧
    CapOK (placeBlock s a) ∧ SubtreeOK (placeBlock s a) := by
  have hleaf : s.position.getD a 0 < 2 ^ s.L := by
    apply hplt
    rw [List.getD_eq_getElem?_getD,
      List.getElem?_eq_getElem (show a < s.position.length by omega)]
    exact List.getElem_mem ..
  unfold placeBlock
  split
  · rename_i s1 hplace
    obtain ⟨l, hmem, hroom, heq⟩ := placeAt_spec _ s _ a s1 hplace
    have hl : l ≤ s.L := mem_levelsDesc.mp hmem
    have hidx : (if 0 < l then s.position.getD a 0 >>> (s.L - l) else 0) < 2 ^ l := by
      by_cases h0 : 0 < l
      · rw [if_pos h0]; exact shiftRight_lt hleaf hl
      · rw [if_neg h0]; exact Nat.pos_pow_of_pos _ (by norm_num)
    have hni : node_index l (if 0 < l then s.position.getD a 0 >>> (s.L - l) else 0)
        < s.tree.length := htl ▸ node_index_lt hl hidx
    obtain ⟨t1, t2, hdec, _, hset⟩ := tree_decomp s.tree _ [] hni
    subst heq
    refine ⟨rfl, rfl, rfl, rfl, List.length_set .., ?_, ?_, ?_⟩
    · show (s.stash ++ (s.tree.set _ _).flatten).Perm _
      rw [hset, List.perm_iff_count]
      intro p
      conv_rhs => rw [show allPairs s = s.stash ++ s.tree.flatten from rfl, hdec]
      rw [List.flatten_append, List.flatten_cons, List.flatten_append,
        List.flatten_cons]
      have hbk : bucket s l (if 0 < l then s.position.getD a 0 >>> (s.L - l) else 0)
          = s.tree.getD
            (node_index l (if 0 < l then s.position.getD a 0 >>> (s.L - l) else 0))
            [] := rfl
      simp only [List.count_append, List.count_cons, List.count_nil, beq_iff_eq, hbk]
      omega
    · intro n
      show ((s.tree.set _ _).getD n []).length ≤ s.Z
      by_cases hn : n =
          node_index l (if 0 < l then s.position.getD a 0 >>> (s.L - l) else 0)
      · subst hn
        rw [getD_set_self _ _ _ _ hni, List.length_append, List.length_singleton]
        omega
      · rw [getD_set_ne _ (fun h => hn h.symm) _ _]
        exact hcap n
    · intro l' hl' idx' hidx' p hp h0
      show s.position.getD p.1 0 >>> (s.L - l') = idx'
      have hp' : p ∈ (s.tree.set
          (node_index l (if 0 < l then s.position.getD a 0 >>> (s.L - l) else 0))
          (bucket s l (if 0 < l then s.position.getD a 0 >>> (s.L - l) else 0) ++
            [(a, PyVal.int a)])).getD (node_index l' idx') [] := hp
      by_cases hn : node_index l' idx' =
          node_index l (if 0 < l then s.position.getD a 0 >>> (s.L - l) else 0)
      · obtain ⟨hll, hii⟩ := node_index_inj hidx' hidx hn
        rw [hn, getD_set_self _ _ _ _ hni] at hp'
        rcases List.mem_append.mp hp' with hold | hnew
        · rw [hll, hii]
          exact hsub l hl _ hidx p hold (hll ▸ h0)
        · have hpa : p = (a, PyVal.int a) := List.mem_singleton.mp hnew
          rw [hpa, hll, hii]
        
          rw [if_pos (hll ▸ h0)]
      · rw [getD_set_ne _ (fun h => hn h.symm) _ _] at hp'
        exact hsub l' hl' idx' hidx' p hp' h0
  · rename_i hplace
    have hnostash : a ∉ dictKeys s.stash := by
      intro hcon
      apply hnotin
      unfold allKeys allPairs
      rw [List.map_append]
      exact List.mem_append_left _ hcon
    have hstash : dictInsert s.stash a (PyVal.int a) = s.stash ++ [(a, PyVal.int a)] :=
      dictInsert_of_not_mem _ hnostash
    refine ⟨rfl, rfl, rfl, rfl, rfl, ?_, hcap, hsub⟩
    show (dictInsert s.stash a (PyVal.int a) ++ s.tree.flatten).Perm _
    rw [hstash, List.perm_iff_count]
    intro p
    unfold allPairs
    simp only [List.count_append, List.count_cons, List.count_nil, beq_iff_eq]
    omega

theorem placeBlocks_fold_spec :
    ∀ (order : List Nat) (s : PathORAM),
      order.Nodup →
      (∀ a ∈ order, a < s.N) →
      (∀ a ∈ order, a ∉ allKeys s) →
      s.position.length = s.N →
      (∀ p ∈ s.position, p < 2 ^ s.L) →
      s.tree.length = numNodes s.L →
      CapOK s → SubtreeOK s → (allKeys s).Nodup →
      (order.foldl placeBlock s).N = s.N ∧
      (order.foldl placeBlock s).Z = s.Z ∧
      (order.foldl placeBlock s).L = s.L ∧
      (order.foldl placeBlock s).position = s.position ∧
      (order.foldl placeBlock s).tree.length = s.tree.length ∧
      (allKeys (order.foldl placeBlock s)).Perm (allKeys s ++ order) ∧
      CapOK (order.foldl placeBlock s) ∧ SubtreeOK (order.foldl placeBlock s) := by
  intro order
  induction order with
  | nil =>
    intro s _ _ _ _ _ _ hcap hsub _
    exact ⟨rfl, rfl, rfl, rfl, rfl, by simp, hcap, hsub⟩
  | cons a rest ih =>
    intro s hnd hlt hnotin hplen hplt htl hcap hsub hkeys
    have haN : a < s.N := hlt a (List.mem_cons_self ..)
    have hanotin : a ∉ allKeys s := hnotin a (List.mem_cons_self ..)
    obtain ⟨sN, sZ, sL, sPos, sTree, sPerm, sCap, sSub⟩ :=
      placeBlock_step_spec s a haN hanotin hplen hplt htl hcap hsub
    have hkperm : (allKeys (placeBlock s a)).Perm (allKeys s ++ [a]) := by
      have := sPerm.map Prod.fst
      rw [List.map_append] at this
      exact this
    have hkeys1 : (allKeys (placeBlock s a)).Nodup := by
      apply hkperm.nodup_iff.mpr
      rw [List.nodup_append]
      refine ⟨hkeys, List.nodup_singleton a, ?_⟩
      intro b hb hbmem
      rw [List.mem_singleton] at hbmem
      exact hanotin (hbmem ▸ hb)
    obtain ⟨iN, iZ, iL, iPos, iTree, iPerm, iCap, iSub⟩ :=
      ih (placeBlock s a) (List.nodup_cons.mp hnd).2
        (fun a' h => sN ▸ hlt a' (List.mem_cons_of_mem _ h))
        (fun a' h => by
          rw [hkperm.mem_iff, List.mem_append, List.mem_singleton]
          push_neg
          exact ⟨hnotin a' (List.mem_cons_of_mem _ h),
            fun hcon => (List.nodup_cons.mp hnd).1 (hcon ▸ h)⟩)
        (by rw [sPos, sN]; exact hplen)
        (by rw [sPos, sL]; exact hplt)
        (by rw [sTree, sL]; exact htl)
        sCap sSub hkeys1
    rw [List.foldl_cons]
    refine ⟨iN.trans sN, iZ.trans sZ, iL.trans sL, iPos.trans sPos,
      iTree.trans sTree, ?_, iCap, iSub⟩
    refine (iPerm.trans (hkperm.append_right rest)).trans ?_
    rw [List.append_assoc, List.singleton_append]

/-! ## The access phases, combined -/

theorem resample_read_spec (s s1 : PathORAM) (aN rnew : Nat) (g' : RNG)
    (hinv : EngineInv s) (haN : aN < s.N) (_hrnew : rnew < 2 ^ s.L)
    (hs1 : s1 = { s with position := s.position.set aN rnew, rng := g' }) :
    (readPath s1 (s.position.getD aN 0)).stash =
      s.stash ++ ((path_nodes s.L (s.position.getD aN 0)).map
        (fun li => bucket s li.1 li.2)).flatten ∧
    (∀ n, n ∉ pathIdxs s.L (s.position.getD aN 0) →
      (readPath s1 (s.position.getD aN 0)).tree.getD n [] = s.tree.getD n []) ∧
    (∀ li ∈ path_nodes s.L (s.position.getD aN 0),
      bucket (readPath s1 (s.position.getD aN 0)) li.1 li.2 = []) ∧
    (allPairs (readPath s1 (s.position.getD aN 0))).Perm (allPairs s) ∧
    SubtreeOK (readPath s1 (s.position.getD aN 0)) ∧
    (∃ v0, dictGet (readPath s1 (s.position.getD aN 0)).stash aN = some v0 ∧
      dataOf s aN = some v0) ∧
    CapOK (readPath s1 (s.position.getD aN 0)) := by
  have hx : s.position.getD aN 0 < 2 ^ s.L := by
    apply hinv.posLt
    rw [List.getD_eq_getElem?_getD,
      List.getElem?_eq_getElem (show aN < s.position.length by rw [hinv.posLen]; omega)]
    exact List.getElem_mem ..
  have hkeysnd : (allKeys s).Nodup :=
    (hinv.keys.nodup_iff).mpr (List.nodup_range s.N)
  have hx1 : s.position.getD aN 0 < 2 ^ s1.L := by rw [hs1]; exact hx
  have htl1 : s1.tree.length = numNodes s1.L := by rw [hs1]; exact hinv.treeLen
  have hkeys1 : (allKeys s1).Nodup := by rw [hs1]; exact hkeysnd
  obtain ⟨r1, r2, r3, r4⟩ := readPath_spec s1 (s.position.getD aN 0) hx1 htl1 hkeys1
  have hs1stash : s1.stash = s.stash := by rw [hs1]
  have hs1tree : s1.tree = s.tree := by rw [hs1]
  have hs1L : s1.L = s.L := by rw [hs1]
  have hs1Z : s1.Z = s.Z := by rw [hs1]
  have hs1pos : s1.position = s.position.set aN rnew := by rw [hs1]
  have hs1pairs : allPairs s1 = allPairs s := by
    unfold allPairs
    rw [hs1stash, hs1tree]
  have hbuck1 : ∀ l idx, bucket s1 l idx = bucket s l idx := by
    intro l idx
    unfold bucket
    rw [hs1tree]
  have hr1 : (readPath s1 (s.position.getD aN 0)).stash =
      s.stash ++ ((path_nodes s.L (s.position.getD aN 0)).map
        (fun li => bucket s li.1 li.2)).flatten := by
    rw [r1, hs1stash, hs1L]
    congr 1
    apply congrArg
    apply List.map_congr_left
    intro li _
    exact hbuck1 li.1 li.2
  have hr2 : ∀ n, n ∉ pathIdxs s.L (s.position.getD aN 0) →
      (readPath s1 (s.position.getD aN 0)).tree.getD n [] = s.tree.getD n [] := by
    intro n hn
    rw [r2 n (by rw [hs1L]; exact hn), hs1tree]
  have hr3 : ∀ li ∈ path_nodes s.L (s.position.getD aN 0),
      bucket (readPath s1 (s.position.getD aN 0)) li.1 li.2 = [] := by
    intro li hli
    exact r3 li (by rw [hs1L]; exact hli)
  have hr4 : (allPairs (readPath s1 (s.position.getD aN 0))).Perm (allPairs s) :=
    hs1pairs ▸ r4
  have hoff : ∀ l idx, l ≤ s.L → idx < 2 ^ l →
      node_index l idx ∉ pathIdxs s.L (s.position.getD aN 0) →
      ∀ p ∈ bucket s l idx, p.1 ≠ aN := by
    intro l idx hl hidx hnmem p hp hcon
    apply hnmem
    have hrel : 0 < l → (s.position.getD aN 0) >>> (s.L - l) = idx := by
      intro h0
      have hgoal := hinv.sub l hl idx hidx p hp h0
      rwa [hcon] at hgoal
    exact List.mem_map_of_mem _ (mem_path_nodes_of_subtree hl hidx hrel)
  refine ⟨hr1, hr2, hr3, hr4, ?_, ?_, ?_⟩
  · -- subtree-correctness after the read, with the resampled position map
    intro l hl idx hidx p hp h0
    have hl' : l ≤ s.L := by
      rw [readPath_L, hs1L] at hl
      exact hl
    rw [readPath_position, readPath_L, hs1pos, hs1L]
    by_cases hmem : node_index l idx ∈ pathIdxs s.L (s.position.getD aN 0)
    · exfalso
      obtain ⟨li, hli, hn⟩ := List.mem_map.mp hmem
      have hb := path_nodes_bounds hx hli
      obtain ⟨heql, heqidx⟩ := node_index_inj hb.2.1 hidx hn
      have hline : li = (l, idx) := Prod.ext heql heqidx
      rw [hline] at hli
      have hempty := hr3 (l, idx) hli
      rw [hempty] at hp
      cases hp
    · have hbeq : bucket (readPath s1 (s.position.getD aN 0)) l idx =
          bucket s l idx := by
        unfold bucket
        exact hr2 _ hmem
      rw [hbeq] at hp
      have hne : p.1 ≠ aN := hoff l idx hl' hidx hmem p hp
      rw [getD_set_ne _ (fun h => hne h.symm) _ _]
      exact hinv.sub l hl' idx hidx p hp h0
  · -- the accessed block has been absorbed into the stash
    have haK : aN ∈ (allPairs s).map Prod.fst :=
      (hinv.keys.mem_iff).mpr (List.mem_range.mpr haN)
    obtain ⟨p0, hp0mem, hp0fst⟩ := List.mem_map.mp haK
    have hp0 : (aN, p0.2) = p0 := Prod.ext hp0fst.symm rfl
    have hdata : dataOf s aN = some p0.2 :=
      dictGet_eq_some_of_mem hkeysnd (hp0 ▸ hp0mem)
    have hmemstash : (aN, p0.2) ∈ (readPath s1 (s.position.getD aN 0)).stash := by
      rw [hr1]
      have hsplit : (aN, p0.2) ∈ s.stash ++ s.tree.flatten := hp0 ▸ hp0mem
      rcases List.mem_append.mp hsplit with hst | htr
      · exact List.mem_append_left _ hst
      · obtain ⟨bk, hbk, hpin⟩ := List.mem_flatten.mp htr
        obtain ⟨n, hn, heq⟩ := List.mem_iff_getElem.mp hbk
        obtain ⟨l, idx, hl, hidx, hni⟩ :=
          node_index_surj (L := s.L) (by rw [← hinv.treeLen]; exact hn)
        have hbket : bucket s l idx = bk := by
          unfold bucket
          rw [hni, List.getD_eq_getElem?_getD, List.getElem?_eq_getElem hn]
          exact heq
        have hpair : (aN, p0.2) ∈ bucket s l idx := by rw [hbket]; exact hpin
        have hrel : 0 < l → (s.position.getD aN 0) >>> (s.L - l) = idx := fun h0 =>
          hinv.sub l hl idx hidx (aN, p0.2) hpair h0
        apply List.mem_append_right
        apply List.mem_flatten.mpr
        refine ⟨bucket s l idx, ?_, hpair⟩
        exact List.mem_map_of_mem _ (mem_path_nodes_of_subtree hl hidx hrel)
    refine ⟨p0.2, ?_, hdata⟩
    apply dictGet_eq_some_of_mem _ hmemstash
    exact stash_keys_nodup ((hr4.map Prod.fst).nodup_iff.mpr hkeysnd)
  · -- capacity after the read
    intro n
    have hZ2 : (readPath s1 (s.position.getD aN 0)).Z = s.Z := by
      rw [readPath_Z, hs1Z]
    rw [hZ2]
    by_cases hmem : n ∈ pathIdxs s.L (s.position.getD aN 0)
    · obtain ⟨li, hli, hn⟩ := List.mem_map.mp hmem
      rw [← hn]
      have hempty := hr3 li hli
      unfold bucket at hempty
      rw [hempty]
      simp
    · rw [hr2 n hmem]
      exact hinv.cap n

theorem evict_final_spec (s s3 : PathORAM) (aN x rnew : Nat)
    (hx : x < 2 ^ s.L)
    (hN : s3.N = s.N) (hZ : s3.Z = s.Z) (hL : s3.L = s.L)
    (hpos : s3.position = s.position.set aN rnew)
    (hplen : s.position.length = s.N)
    (hposlt : ∀ p ∈ s.position, p < 2 ^ s.L) (hrnew : rnew < 2 ^ s.L)
    (htl : s3.tree.length = numNodes s.L)
    (hzpos : 0 < s.Z)
    (hkeys : (allKeys s3).Perm (List.range s.N))
    (hcap : CapOK s3) (hsub : SubtreeOK s3)
    (htreeoff : ∀ n, n ∉ pathIdxs s.L x → s3.tree.getD n [] = s.tree.getD n []) :
    EngineInv (evictPath s3 x) ∧
    (evictPath s3 x).N = s.N ∧ (evictPath s3 x).Z = s.Z ∧
    (evictPath s3 x).L = s.L ∧
    (evictPath s3 x).position = s.position.set aN rnew ∧
    (∀ n, n ∉ pathIdxs s.L x → (evictPath s3 x).tree.getD n [] = s.tree.getD n []) ∧
    (allPairs (evictPath s3 x)).Perm (allPairs s3) := by
  obtain ⟨e1, e2, e3, e4⟩ := evictLevels_fold_spec (levelsDesc s3.L) s3 x
    (fun l h => mem_levelsDesc.mp h) (by rw [hL]; exact hx) (by rw [htl, hL])
    ((hkeys.nodup_iff).mpr (List.nodup_range s.N)) hcap hsub
  have hfold : evictPath s3 x = (levelsDesc s3.L).foldl
      (fun s' l => evictLevel s' x l) s3 := rfl
  rw [← hfold] at e1 e2 e3 e4
  have hN' : (evictPath s3 x).N = s.N := by rw [evictPath_N, hN]
  have hZ' : (evictPath s3 x).Z = s.Z := by rw [evictPath_Z, hZ]
  have hL' : (evictPath s3 x).L = s.L := by rw [evictPath_L, hL]
  have hpos' : (evictPath s3 x).position = s.position.set aN rnew := by
    rw [evictPath_position, hpos]
  have htree' : ∀ n, n ∉ pathIdxs s.L x →
      (evictPath s3 x).tree.getD n [] = s.tree.getD n [] := by
    intro n hn
    rw [e2 n (by rw [hL]; exact hn)]
    exact htreeoff n hn
  have hkeys' : (allKeys (evictPath s3 x)).Perm (List.range s.N) :=
    (e1.map Prod.fst).trans hkeys
  refine ⟨?_, hN', hZ', hL', hpos', htree', e1⟩
  refine ⟨?_, ?_, ?_, ?_, ?_, e3, e4⟩
  · rw [hZ']; exact hzpos
  · rw [hpos', hN', List.length_set]; exact hplen
  · intro p hp
    rw [hpos'] at hp
    rw [hL']
    rcases List.mem_or_eq_of_mem_set hp with h | h
    · exact hposlt p h
    · rw [h]; exact hrnew
  · rw [evictPath_treeLen, hL', htl]
  · rw [hN']; exact hkeys'

theorem access_spec (s : PathORAM) (op : String) (a : Int) (d : PyVal)
    (r : PyVal) (s' : PathORAM) (hinv : EngineInv s)
    (h : access op a d s = some (r, s')) :
    EngineInv s' ∧ s'.N = s.N ∧ s'.Z = s.Z ∧ s'.L = s.L ∧
    s'.position = s.position.set a.toNat (s.rng 0 % leafSpace s.L) ∧
    (∀ n, n ∉ pathIdxs s.L (s.position.getD a.toNat 0) →
      s'.tree.getD n [] = s.tree.getD n []) ∧
    ((allPairs s').filter (fun p => !(p.1 == a.toNat))).Perm
      ((allPairs s).filter (fun p => !(p.1 == a.toNat))) ∧
    (∃ v0, dataOf s a.toNat = some v0 ∧ r = v0) ∧
    (op = "write" → dataOf s' a.toNat = some d) ∧
    0 ≤ a ∧ a < (s.N : Int) := by
  unfold access at h
  split at h
  · split at h
    · rename_i hcond hop
      simp only [randrange] at h
      rw [Option.some.injEq, Prod.mk.injEq] at h
      obtain ⟨hr, hs'⟩ := h
      have haN : a.toNat < s.N := by omega
      have hrnew : s.rng 0 % leafSpace s.L < 2 ^ s.L := by
        have hpow : 0 < leafSpace s.L := Nat.pos_pow_of_pos _ (by norm_num)
        exact Nat.mod_lt (s.rng 0) hpow
      obtain ⟨m1, m2, m3, m4, m5, ⟨v0, mget, mdata⟩, m7⟩ :=
        resample_read_spec s _ a.toNat (s.rng 0 % leafSpace s.L) (s.rng.next)
          hinv haN hrnew rfl
      have hx : s.position.getD a.toNat 0 < 2 ^ s.L := by
        apply hinv.posLt
        rw [List.getD_eq_getElem?_getD, List.getElem?_eq_getElem
          (show a.toNat < s.position.length by rw [hinv.posLen]; omega)]
        exact List.getElem_mem ..
      have hs2N : (readPath { s with
          position := s.position.set a.toNat (s.rng 0 % leafSpace s.L),
          rng := s.rng.next } (s.position.getD a.toNat 0)).N = s.N := by
        rw [readPath_N]
      have hs2Z : (readPath { s with
          position := s.position.set a.toNat (s.rng 0 % leafSpace s.L),
          rng := s.rng.next } (s.position.getD a.toNat 0)).Z = s.Z := by
        rw [readPath_Z]
      have hs2L : (readPath { s with
          position := s.position.set a.toNat (s.rng 0 % leafSpace s.L),
          rng := s.rng.next } (s.position.getD a.toNat 0)).L = s.L := by
        rw [readPath_L]
      have hs2pos : (readPath { s with
          position := s.position.set a.toNat (s.rng 0 % leafSpace s.L),
          rng := s.rng.next } (s.position.getD a.toNat 0)).position =
          s.position.set a.toNat (s.rng 0 % leafSpace s.L) := by
        rw [readPath_position]
      have hs2tl : (readPath { s with
          position := s.position.set a.toNat (s.rng 0 % leafSpace s.L),
          rng := s.rng.next } (s.position.getD a.toNat 0)).tree.length =
          numNodes s.L := by
        rw [readPath_treeLen]
        exact hinv.treeLen
      have hs2keys : (allKeys (readPath { s with
          position := s.position.set a.toNat (s.rng 0 % leafSpace s.L),
          rng := s.rng.next } (s.position.getD a.toNat 0))).Perm
          (List.range s.N) :=
        (m4.map Prod.fst).trans hinv.keys
      rcases hop with hop | hop
      · -- op = "read"
        subst hop
        rw [if_neg (by decide)] at hs'
        subst hs'
        obtain ⟨einv, eN, eZ, eL, epos, etree, eperm⟩ :=
          evict_final_spec s _ a.toNat (s.position.getD a.toNat 0)
            (s.rng 0 % leafSpace s.L) hx hs2N hs2Z hs2L hs2pos hinv.posLen
            hinv.posLt hrnew hs2tl hinv.zpos hs2keys m7 m5 m2
        refine ⟨einv, eN, eZ, eL, epos, etree, ?_, ⟨v0, mdata, ?_⟩, ?_,
          hcond.1, hcond.2⟩
        · exact (eperm.filter _).trans (m4.filter _)
        · rw [mget, Option.getD_some] at hr
          exact hr.symm
        · intro hcon
          exact absurd hcon (by decide)
      · -- op = "write"
        subst hop
        rw [if_pos rfl] at hs'
        subst hs'
        set s3w : PathORAM := { readPath { s with
            position := s.position.set a.toNat (s.rng 0 % leafSpace s.L),
            rng := s.rng.next } (s.position.getD a.toNat 0) with
            stash := dictInsert (readPath { s with
              position := s.position.set a.toNat (s.rng 0 % leafSpace s.L),
              rng := s.rng.next } (s.position.getD a.toNat 0)).stash a.toNat d }
          with hs3w
        have haNmem : a.toNat ∈ dictKeys (readPath { s with
            position := s.position.set a.toNat (s.rng 0 % leafSpace s.L),
            rng := s.rng.next } (s.position.getD a.toNat 0)).stash :=
          mem_dictKeys.mpr ⟨v0, mem_of_dictGet mget⟩
        have hstashw : s3w.stash = dictInsert (readPath { s with
            position := s.position.set a.toNat (s.rng 0 % leafSpace s.L),
            rng := s.rng.next } (s.position.getD a.toNat 0)).stash a.toNat d := by
          rw [hs3w]
        have htreew : s3w.tree = (readPath { s with
            position := s.position.set a.toNat (s.rng 0 % leafSpace s.L),
            rng := s.rng.next } (s.position.getD a.toNat 0)).tree := by
          rw [hs3w]
        have hpairsw : allPairs s3w = dictInsert (readPath { s with
            position := s.position.set a.toNat (s.rng 0 % leafSpace s.L),
            rng := s.rng.next } (s.position.getD a.toNat 0)).stash a.toNat d ++
            (readPath { s with
              position := s.position.set a.toNat (s.rng 0 % leafSpace s.L),
              rng := s.rng.next } (s.position.getD a.toNat 0)).tree.flatten := by
          unfold allPairs
          rw [hstashw, htreew]
        have hkeys3 : allKeys s3w = allKeys (readPath { s with
            position := s.position.set a.toNat (s.rng 0 % leafSpace s.L),
            rng := s.rng.next } (s.position.getD a.toNat 0)) := by
          unfold allKeys
          rw [hpairsw]
          show _ = (allPairs (readPath { s with
            position := s.position.set a.toNat (s.rng 0 % leafSpace s.L),
            rng := s.rng.next } (s.position.getD a.toNat 0))).map Prod.fst
          rw [show allPairs (readPath { s with
            position := s.position.set a.toNat (s.rng 0 % leafSpace s.L),
            rng := s.rng.next } (s.position.getD a.toNat 0)) =
            (readPath { s with
              position := s.position.set a.toNat (s.rng 0 % leafSpace s.L),
              rng := s.rng.next } (s.position.getD a.toNat 0)).stash ++
            (readPath { s with
              position := s.position.set a.toNat (s.rng 0 % leafSpace s.L),
              rng := s.rng.next } (s.position.getD a.toNat 0)).tree.flatten from rfl]
          rw [List.map_append, List.map_append]
          congr 1
          exact dictKeys_insert_of_mem _ haNmem
        have m7w : CapOK s3w := m7
        have m5w : SubtreeOK s3w := m5
        have m2w : ∀ n, n ∉ pathIdxs s.L (s.position.getD a.toNat 0) →
            s3w.tree.getD n [] = s.tree.getD n [] := m2
        have hNw : s3w.N = s.N := hs2N
        have hZw : s3w.Z = s.Z := hs2Z
        have hLw : s3w.L = s.L := hs2L
        have hposw : s3w.position =
            s.position.set a.toNat (s.rng 0 % leafSpace s.L) := hs2pos
        have htlw : s3w.tree.length = numNodes s.L := hs2tl
        have hkeysw : (allKeys s3w).Perm (List.range s.N) := by
          rw [hkeys3]
          exact hs2keys
        obtain ⟨einv, eN, eZ, eL, epos, etree, eperm⟩ :=
          evict_final_spec s s3w a.toNat (s.position.getD a.toNat 0)
            (s.rng 0 % leafSpace s.L) hx hNw hZw hLw hposw hinv.posLen
            hinv.posLt hrnew htlw hinv.zpos hkeysw m7w m5w m2w
        refine ⟨einv, eN, eZ, eL, epos, etree, ?_, ⟨v0, mdata, ?_⟩, ?_,
          hcond.1, hcond.2⟩
        · refine ((eperm.filter _).trans ?_).trans (m4.filter _)
          rw [hpairsw, List.filter_append, dictInsert_filter_ne,
            ← List.filter_append]
          exact List.Perm.refl _
        · rw [mget, Option.getD_some] at hr
          exact hr.symm
        · intro _
          have hmem3 : (a.toNat, d) ∈ allPairs s3w := by
            rw [hpairsw]
            exact List.mem_append_left _ (mem_dictInsert_self _ _)
          have hmem4 := (eperm.mem_iff).mpr hmem3
          exact dictGet_eq_some_of_mem
            ((einv.keys.nodup_iff).mpr (List.nodup_range _)) hmem4
    · exact absurd h (by simp)
  · exact absurd h (by simp)

/-! ## Construction establishes the invariant -/

theorem initCore_inv (N Z L : Nat) (g : RNG) (hZ : 0 < Z) :
    EngineInv (initCore N Z L g) ∧ (initCore N Z L g).N = N ∧
    (initCore N Z L g).Z = Z ∧ (initCore N Z L g).L = L := by
  obtain ⟨hplen, hplt⟩ :=
    randList_spec N (leafSpace L) g (Nat.pos_pow_of_pos L (by norm_num))
  have hic : initCore N Z L g =
      ((shuffle (List.range N) (randList N (leafSpace L) g).2).1).foldl placeBlock
        { N := N, Z := Z, L := L, tree := List.replicate (numNodes L) [],
          position := (randList N (leafSpace L) g).1, stash := [],
          rng := (shuffle (List.range N) (randList N (leafSpace L) g).2).2 } := rfl
  have horderperm : ((shuffle (List.range N) (randList N (leafSpace L) g).2).1).Perm
      (List.range N) := shuffle_perm _ _
  have hkeys0 : allKeys
      ({ N := N, Z := Z, L := L, tree := List.replicate (numNodes L) [],
         position := (randList N (leafSpace L) g).1, stash := [],
         rng := (shuffle (List.range N) (randList N (leafSpace L) g).2).2 } :
        PathORAM) = [] := by
    unfold allKeys allPairs
    rw [flatten_replicate_nil]
    rfl
  obtain ⟨fN, fZ, fL, fPos, fTree, fPerm, fCap, fSub⟩ :=
    placeBlocks_fold_spec _ _ (horderperm.nodup_iff.mpr (List.nodup_range N))
      (fun a h => List.mem_range.mp (horderperm.subset h))
      (fun a _ => by rw [hkeys0]; exact List.not_mem_nil a)
      hplen hplt (List.length_replicate ..)
      (fun n => by rw [getD_replicate_nil]; exact Nat.zero_le Z)
      (by
        intro l hl idx hidx p hp h0
        exfalso
        unfold bucket at hp
        rw [getD_replicate_nil] at hp
        cases hp)
      (by rw [hkeys0]; exact List.nodup_nil)
  rw [hic]
  refine ⟨?_, fN, fZ, fL⟩
  refine ⟨by rw [fZ]; exact hZ, ?_, ?_, ?_, ?_, fCap, fSub⟩
  · rw [fPos, fN]; exact hplen
  · rw [fPos, fL]; exact hplt
  · rw [fTree, fL]; exact List.length_replicate ..
  · rw [fN]
    refine fPerm.trans ?_
    rw [hkeys0, List.nil_append]
    exact horderperm

theorem init_inv (N Z L : Int) (g : RNG) (s : PathORAM)
    (h : init N Z L g = some s) : EngineInv s := by
  unfold init at h
  split_ifs at h with h1 h2 h3 h4
  have hs := Option.some.inj h
  subst hs
  exact (initCore_inv N.toNat Z.toNat L.toNat g (by omega)).1

/-- Every reachable state satisfies the engine invariant. -/
theorem reachable_inv (s : PathORAM) (h : Reachable s) : EngineInv s := by
  induction h with
  | base N Z L g s hinit => exact init_inv N Z L g s hinit
  | step s op a d r s' _ hacc ih =>
    exact (access_spec s op a d r s' ih hacc).1

/-! ## The claims about the engine invariants -/

/-- C1: conservation.  For every engine built by a valid construction and
mutated by any sequence of valid `access` calls, each block id in `[0, N)`
occurs exactly once in the multiset of ids resident across all tree buckets
and the stash: no duplicates, no omissions. -/
theorem conservation (s : PathORAM) (h : Reachable s) :
    ∀ b, b < s.N → (allKeys s).count b = 1 := by
  intro b hb
  have hinv := reachable_inv s h
  rw [hinv.keys.count_eq]
  have hmem : b ∈ List.range s.N := List.mem_range.mpr hb
  exact List.count_eq_one_of_mem (List.nodup_range s.N) hmem

/-- Witness for C1 on a concretely constructed engine. -/
theorem conservation_witness : (allKeys sEx).count 0 = 1 :=
  conservation sEx (Reachable.base 2 1 1 g0 sEx rfl) 0 (by decide)

/-- C2: capacity invariant.  In every reachable state, every bucket of the
tree holds at most `Z` `(block_id, data)` pairs. -/
theorem capacity_invariant (s : PathORAM) (h : Reachable s) :
    ∀ bk ∈ s.tree, bk.length ≤ s.Z := by
  intro bk hbk
  have hinv := reachable_inv s h
  obtain ⟨n, hn, heq⟩ := List.mem_iff_getElem.mp hbk
  have hc := hinv.cap n
  rw [List.getD_eq_getElem?_getD, List.getElem?_eq_getElem hn] at hc
  rw [← heq]
  simpa using hc

/-- Witness for C2 on a concrete bucket of a concretely constructed engine. -/
theorem capacity_invariant_witness : [(0, PyVal.int 0)].length ≤ sEx.Z :=
  capacity_invariant sEx (Reachable.base 2 1 1 g0 sEx rfl)
    [(0, PyVal.int 0)] (by decide)

/-- C3: subtree-correctness of eviction.  After any valid `access` on a
reachable state, every block resident in the bucket at `(l, idx)` has a
current position-map leaf inside the subtree rooted there:
`position[bid] >>> (L - l) = idx` whenever `l > 0` (the root always
qualifies). -/
theorem subtree_correct_after_access (s : PathORAM) (op : String) (a : Int)
    (d r : PyVal) (s' : PathORAM) (h : Reachable s)
    (hacc : access op a d s = some (r, s')) : SubtreeOK s' :=
  (access_spec s op a d r s' (reachable_inv s h) hacc).1.sub

/-- Witness for C3 on a concrete access. -/
theorem subtree_correct_witness : SubtreeOK accEx.2 :=
  subtree_correct_after_access sEx4 "read" 0 PyVal.none accEx.1 accEx.2
    (Reachable.base 4 2 2 g1 sEx4 rfl) rfl

/-- C5: path-read completeness.  In any reachable state, for a valid block
`a` whose pre-access position is the leaf `x = position[a]`, immediately
after the position resample and the path read-and-clear phase (and before
eviction begins), every bucket on the root-to-leaf path of `x` is empty, and
every `(block_id, data)` pair those buckets held is present in the stash. -/
theorem path_read_completeness (s : PathORAM) (a rnew : Nat) (g' : RNG)
    (h : Reachable s) (ha : a < s.N) (hrnew : rnew < 2 ^ s.L) :
    (∀ li ∈ path_nodes s.L (s.position.getD a 0),
      bucket (readPath { s with position := s.position.set a rnew, rng := g' }
        (s.position.getD a 0)) li.1 li.2 = []) ∧
    (∀ li ∈ path_nodes s.L (s.position.getD a 0), ∀ p ∈ bucket s li.1 li.2,
      p ∈ (readPath { s with position := s.position.set a rnew, rng := g' }
        (s.position.getD a 0)).stash) := by
  have hinv := reachable_inv s h
  obtain ⟨m1, _, m3, _, _, _, _⟩ :=
    resample_read_spec s _ a rnew g' hinv ha hrnew rfl
  refine ⟨m3, ?_⟩
  intro li hli p hp
  rw [m1]
  apply List.mem_append_right
  apply List.mem_flatten.mpr
  exact ⟨bucket s li.1 li.2, List.mem_map_of_mem _ hli, hp⟩

/-- Witness for C5 on a concrete engine, block and resample target. -/
theorem path_read_completeness_witness :
    (∀ li ∈ path_nodes sEx4.L (sEx4.position.getD 0 0),
      bucket (readPath { sEx4 with position := sEx4.position.set 0 1, rng := g1 }
        (sEx4.position.getD 0 0)) li.1 li.2 = []) ∧
    (∀ li ∈ path_nodes sEx4.L (sEx4.position.getD 0 0),
      ∀ p ∈ bucket sEx4 li.1 li.2,
      p ∈ (readPath { sEx4 with position := sEx4.position.set 0 1, rng := g1 }
        (sEx4.position.getD 0 0)).stash) :=
  path_read_completeness sEx4 0 1 g1 (Reachable.base 4 2 2 g1 sEx4 rfl)
    (by decide) (by decide)

/-- C4: read/write correctness.  In any reachable state, a
`access("write", a, v)` followed immediately by `access("read", a)` (with no
intervening access to `a`) returns `v` from the read. -/
theorem write_then_read (s : PathORAM) (a : Int) (v w r1 r2 : PyVal)
    (s1 s2 : PathORAM) (h : Reachable s)
    (hw : access "write" a v s = some (r1, s1))
    (hr : access "read" a w s1 = some (r2, s2)) : r2 = v := by
  have hinv := reachable_inv s h
  obtain ⟨inv1, _, _, _, _, _, _, _, hwrite, _, _⟩ :=
    access_spec s "write" a v r1 s1 hinv hw
  have hdata : dataOf s1 a.toNat = some v := hwrite rfl
  obtain ⟨_, _, _, _, _, _, _, ⟨v0, hv0, hr2⟩, _, _, _⟩ :=
    access_spec s1 "read" a w r2 s2 inv1 hr
  rw [hdata] at hv0
  rw [hr2]
  exact (Option.some.inj hv0).symm

/-- Witness for C4 on a concrete engine: write `"x"` to block 0, read it
back. -/
theorem write_then_read_witness : rEx.1 = PyVal.str "x" :=
  write_then_read sEx4 0 (PyVal.str "x") PyVal.none wEx.1 rEx.1 wEx.2 rEx.2
    (Reachable.base 4 2 2 g1 sEx4 rfl) rfl rfl

theorem dictGet_none_iff {d : List (Nat × PyVal)} {k : Nat} :
    dictGet d k = none ↔ k ∉ dictKeys d := by
  unfold dictGet
  rw [Option.map_eq_none', List.find?_eq_none]
  constructor
  · intro h hk
    obtain ⟨v, hv⟩ := mem_dictKeys.mp hk
    have := h _ hv
    simp at this
  · intro h p hp
    simp only [beq_iff_eq]
    intro hcon
    exact h (mem_dictKeys.mpr ⟨p.2,
      (show (k, p.2) = p from Prod.ext hcon.symm rfl) ▸ hp⟩)

theorem dictGet_eq_of_filter_perm {l l' : List (Nat × PyVal)} {k b : Nat}
    (_hnd : (dictKeys l).Nodup) (hnd' : (dictKeys l').Nodup)
    (hperm : (l.filter (fun p => !(p.1 == k))).Perm
      (l'.filter (fun p => !(p.1 == k))))
    (hb : b ≠ k) : dictGet l b = dictGet l' b := by
  have hmemiff : ∀ v : PyVal, (b, v) ∈ l ↔ (b, v) ∈ l' := by
    intro v
    have h1 : (b, v) ∈ l ↔ (b, v) ∈ l.filter (fun p => !(p.1 == k)) := by
      rw [List.mem_filter]
      simp [hb]
    have h2 : (b, v) ∈ l' ↔ (b, v) ∈ l'.filter (fun p => !(p.1 == k)) := by
      rw [List.mem_filter]
      simp [hb]
    rw [h1, h2, hperm.mem_iff]
  cases hget : dictGet l b with
  | some v =>
    exact (dictGet_eq_some_of_mem hnd'
      ((hmemiff v).mp (mem_of_dictGet hget))).symm
  | none =>
    symm
    rw [dictGet_none_iff] at hget ⊢
    intro hk
    obtain ⟨v, hv⟩ := mem_dictKeys.mp hk
    exact hget (mem_dictKeys.mpr ⟨v, (hmemiff v).mpr hv⟩)

/-- C10: frame property of `access`.  For every valid `access` on block `a`
whose pre-access position is leaf `x`, every bucket off the root-to-leaf
path of `x` is unchanged, the position-map entry of every block other than
`a` is unchanged, and the data value associated with every block other than
`a` (wherever it resides) is unchanged. -/
theorem access_frame (s : PathORAM) (op : String) (a : Int) (d r : PyVal)
    (s' : PathORAM) (h : Reachable s)
    (hacc : access op a d s = some (r, s')) :
    (∀ n, n ∉ pathIdxs s.L (s.position.getD a.toNat 0) →
      s'.tree.getD n [] = s.tree.getD n []) ∧
    (∀ b, b ≠ a.toNat → s'.position.getD b 0 = s.position.getD b 0) ∧
    (∀ b, b ≠ a.toNat → dataOf s' b = dataOf s b) := by
  have hinv := reachable_inv s h
  obtain ⟨inv', _, _, _, hpos, htree, hfilter, _, _, _, _⟩ :=
    access_spec s op a d r s' hinv hacc
  refine ⟨htree, ?_, ?_⟩
  · intro b hb
    rw [hpos]
    exact getD_set_ne _ (fun hcon => hb hcon.symm) _ _
  · intro b hb
    exact dictGet_eq_of_filter_perm
      ((inv'.keys.nodup_iff).mpr (List.nodup_range _))
      ((hinv.keys.nodup_iff).mpr (List.nodup_range _)) hfilter hb

/-- Witness for C10 on a concrete access, checking the frame on another
block. -/
theorem access_frame_witness :
    (∀ n, n ∉ pathIdxs sEx4.L (sEx4.position.getD (0 : Int).toNat 0) →
      accEx.2.tree.getD n [] = sEx4.tree.getD n []) ∧
    (∀ b, b ≠ (0 : Int).toNat →
      accEx.2.position.getD b 0 = sEx4.position.getD b 0) ∧
    (∀ b, b ≠ (0 : Int).toNat → dataOf accEx.2 b = dataOf sEx4 b) :=
  access_frame sEx4 "read" 0 PyVal.none accEx.1 accEx.2
    (Reachable.base 4 2 2 g1 sEx4 rfl) rfl
